import Mathlib

/-!
Verification of the KINT range-propagation pass (`src/Range.cc`).

The pass itself (`RangePass`) is embedded shallowly below.  The repository
uses three collaborators whose code is not under `src/`:

* the wraparound-interval domain (`llvm::ConstantRange`);
* the symbolic naming oracle, taint oracle and callee oracle
  (`Annotation.h` / `IntGlobal.h`);
* the back-edge computation (`FindFunctionBackedges`).

Those are modelled from the spec, as noted on each definition; everything
named after a `RangePass` member is translated directly from `src/Range.cc`.
-/

set_option maxRecDepth 10000
set_option synthInstance.maxSize 1024

/-- Modelled from the spec: `IntervalRange` (§3), "an abstract value for a
fixed bit width `w`, representing a (possibly wrapping) contiguous range of
unsigned machine words" (`llvm::ConstantRange`, which is not part of the
repository sources).  A non-empty range denotes the wrapping closed interval
`[lo .. hi]` of values below `2 ^ width`; the full set is normalised to
`lo = 0, hi = 2 ^ width - 1`; the empty set is normalised to `lo = hi = 0`. -/
structure IntervalRange where
  width : Nat
  lo : Nat
  hi : Nat
  isEmpty : Bool
deriving DecidableEq, Repr

namespace IntervalRange

/-- The empty range (bottom) at a given width. -/
def emptyR (w : Nat) : IntervalRange := ⟨w, 0, 0, true⟩

/-- The full range (top) at a given width. -/
def fullR (w : Nat) : IntervalRange := ⟨w, 0, 2 ^ w - 1, false⟩

/-- Membership of a machine word in a (possibly wrapping) range. -/
def mem (R : IntervalRange) (x : Nat) : Bool :=
  if R.isEmpty then false
  else if R.lo ≤ R.hi then decide (R.lo ≤ x) && decide (x ≤ R.hi)
  else decide (x ≤ R.hi) || decide (R.lo ≤ x)

/-- Smart constructor for the wrapping closed interval `[lo .. hi]` at width
`w`, normalising any all-covering interval to the canonical full range. -/
def make (w lo hi : Nat) : IntervalRange :=
  let m := 2 ^ w
  let l := lo % m
  let h := hi % m
  if l = (h + 1) % m then fullR w else ⟨w, l, h, false⟩

/-- The singleton range of a constant (`ConstantRange(APInt)` at the call
sites in `Range.cc`). -/
def constRange (w v : Nat) : IntervalRange := make w v v

/-- Executable inclusion test over the first `m` machine words. -/
def subsetB (m : Nat) (A B : IntervalRange) : Bool :=
  (List.range m).all (fun x => !A.mem x || B.mem x)

/-- Number of words denoted by a range. -/
def size (R : IntervalRange) : Nat :=
  if R.isEmpty then 0
  else if R.lo ≤ R.hi then R.hi - R.lo + 1
  else 2 ^ R.width - R.lo + R.hi + 1

/-- Length of the run of consecutive non-members of `f` found walking
backwards (mod `m`) from position `s`, bounded by the fuel argument. -/
def gapLenAux (m : Nat) (f : Nat → Bool) : Nat → Nat → Nat
  | _, 0 => 0
  | s, fuel + 1 =>
    let p := (s + m - 1) % m
    if f p then 0 else 1 + gapLenAux m f p fuel

/-- Choose the member position preceded by the longest gap (ties broken by
scan order); returns the position paired with its preceding gap length. -/
def pickStart (m : Nat) (f : Nat → Bool) (starts : List Nat) : Option (Nat × Nat) :=
  starts.foldl (fun acc s =>
    let g := gapLenAux m f s m
    match acc with
    | none => some (s, g)
    | some (s0, g0) => if g0 < g then some (s0, g0) else some (s, g)) none

/-- Modelled from the spec: the smallest wrapping interval containing a given
decidable set of words below `2 ^ w` (the convex cover used to express the
set-level operations of the domain). -/
def fromSet (w : Nat) (f : Nat → Bool) : IntervalRange :=
  let m := 2 ^ w
  let mems := (List.range m).filter f
  if mems.isEmpty then emptyR w
  else if mems.length = m then fullR w
  else
    let starts := mems.filter (fun x => !f ((x + m - 1) % m))
    match pickStart m f starts with
    | none => fullR w
    | some (s, g) => ⟨w, s, (s + m - (g + 1)) % m, false⟩

/-- Modelled from the spec: "union (convex join, sound for wrapping)" (§3)
with the invariants "bottom ∪ X = X; X ∪ full = full".  If one operand
contains the other it is returned unchanged; otherwise the smaller of the
two candidate covering intervals is chosen. -/
def unionWith (A B : IntervalRange) : IntervalRange :=
  let m := 2 ^ A.width
  if A.isEmpty then B
  else if B.isEmpty then A
  else if subsetB m A B then B
  else if subsetB m B A then A
  else
    let c1 := make A.width A.lo B.hi
    let c2 := make A.width B.lo A.hi
    let ok1 := subsetB m A c1 && subsetB m B c1
    let ok2 := subsetB m A c2 && subsetB m B c2
    if ok1 && ok2 then (if size c1 ≤ size c2 then c1 else c2)
    else if ok1 then c1
    else if ok2 then c2
    else fullR A.width

/-- Modelled from the spec: intersection (§3), returned as the smallest
wrapping interval containing the set intersection. -/
def intersectWith (A B : IntervalRange) : IntervalRange :=
  fromSet A.width (fun x => A.mem x && B.mem x)

/-- Modelled from the spec: inversion (complement) (§3). -/
def inverse (R : IntervalRange) : IntervalRange :=
  fromSet R.width (fun x => !R.mem x)

/-- Modelled from the spec: zero extension to a wider width (value set
preserved, §4.4). -/
def zeroExtend (R : IntervalRange) (bits : Nat) : IntervalRange :=
  fromSet bits (fun x => decide (x < 2 ^ R.width) && R.mem x)

/-- Modelled from the spec: truncation (values reinterpreted modulo the
narrower width, §4.4). -/
def truncate (R : IntervalRange) (bits : Nat) : IntervalRange :=
  fromSet bits (fun x =>
    (List.range (2 ^ R.width)).any (fun y => R.mem y && decide (y % 2 ^ bits = x)))

/-- `ConstantRange::zextOrTrunc`: identity at equal widths, zero-extension to
a wider width, truncation to a narrower one. -/
def zextOrTrunc (R : IntervalRange) (bits : Nat) : IntervalRange :=
  if R.width = bits then R
  else if R.width < bits then zeroExtend R bits
  else truncate R bits

/-- Signed reinterpretation of a `w`-bit word. -/
def toSigned (w v : Nat) : Int :=
  if v < 2 ^ (w - 1) then (v : Int) else (v : Int) - ((2 ^ w : Nat) : Int)

/-- Value of a `w`-bit word sign-extended to `bits` bits. -/
def sextVal (w bits v : Nat) : Nat :=
  if v < 2 ^ (w - 1) then v else (v + (2 ^ bits - 2 ^ w)) % 2 ^ bits

/-- Modelled from the spec: sign extension ("sign-extension sign-extends the
range", §4.4). -/
def signExtend (R : IntervalRange) (bits : Nat) : IntervalRange :=
  fromSet bits (fun x =>
    (List.range (2 ^ R.width)).any (fun y => R.mem y && decide (sextVal R.width bits y = x)))

end IntervalRange

namespace IntervalRange

/-- The representation invariant maintained by `llvm::ConstantRange` values:
bounds are reduced, the empty set is canonical, and the only non-empty
interval covering every word is the canonical full range. -/
def WF (R : IntervalRange) : Prop :=
  R.lo < 2 ^ R.width ∧ R.hi < 2 ^ R.width ∧
  (R.isEmpty = true → R.lo = 0 ∧ R.hi = 0) ∧
  (R.isEmpty = false → R.lo = (R.hi + 1) % 2 ^ R.width → R.lo = 0 ∧ R.hi = 2 ^ R.width - 1)

theorem two_pow_pos (w : Nat) : 0 < 2 ^ w := pow_pos (by norm_num) w

theorem mem_of_empty {R : IntervalRange} {x : Nat} (h : R.isEmpty = true) :
    R.mem x = false := by
  simp [mem, h]

theorem not_empty_of_mem {R : IntervalRange} {x : Nat} (h : R.mem x = true) :
    R.isEmpty = false := by
  by_cases hE : R.isEmpty = true
  · rw [mem_of_empty hE] at h; exact absurd h (by simp)
  · exact Bool.not_eq_true _ |>.mp hE

theorem mem_iff {R : IntervalRange} {x : Nat} :
    R.mem x = true ↔ R.isEmpty = false ∧
      (if R.lo ≤ R.hi then R.lo ≤ x ∧ x ≤ R.hi else x ≤ R.hi ∨ R.lo ≤ x) := by
  unfold mem
  by_cases hE : R.isEmpty <;> by_cases hle : R.lo ≤ R.hi <;> simp [hE, hle]

theorem mem_lo {R : IntervalRange} (h : R.isEmpty = false) : R.mem R.lo = true := by
  rw [mem_iff]
  refine ⟨h, ?_⟩
  split <;> omega

theorem mem_hi {R : IntervalRange} (h : R.isEmpty = false) : R.mem R.hi = true := by
  rw [mem_iff]
  refine ⟨h, ?_⟩
  split <;> omega

theorem mem_fullR {w x : Nat} (h : x < 2 ^ w) : (fullR w).mem x = true := by
  have := two_pow_pos w
  rw [mem_iff]
  unfold fullR
  dsimp only
  refine ⟨rfl, ?_⟩
  split <;> omega

theorem subsetB_iff {m : Nat} {A B : IntervalRange} :
    subsetB m A B = true ↔ ∀ x, x < m → A.mem x = true → B.mem x = true := by
  unfold subsetB
  rw [List.all_eq_true]
  constructor
  · intro h x hx hm
    have := h x (List.mem_range.mpr hx)
    rw [hm] at this
    simpa using this
  · intro h x hx
    by_cases hm : A.mem x = true
    · rw [hm, h x (List.mem_range.mp hx) hm]; rfl
    · rw [Bool.not_eq_true] at hm
      rw [hm]; rfl

theorem fullR_wf (w : Nat) : WF (fullR w) := by
  have := two_pow_pos w
  unfold WF fullR
  dsimp only
  refine ⟨by omega, by omega, by simp, fun _ _ => ⟨rfl, rfl⟩⟩

theorem emptyR_wf (w : Nat) : WF (emptyR w) := by
  have := two_pow_pos w
  unfold WF emptyR
  dsimp only
  exact ⟨by omega, by omega, fun _ => ⟨rfl, rfl⟩, by simp⟩

theorem make_wf (w lo hi : Nat) : WF (make w lo hi) := by
  have hm := two_pow_pos w
  unfold make
  dsimp only
  split
  · exact fullR_wf w
  · next hcond =>
    refine ⟨Nat.mod_lt _ hm, Nat.mod_lt _ hm, by simp, fun _ hcov => absurd hcov hcond⟩

theorem make_width (w lo hi : Nat) : (make w lo hi).width = w := by
  unfold make fullR
  dsimp only
  split <;> rfl

theorem fromSet_width (w : Nat) (f : Nat → Bool) : (fromSet w f).width = w := by
  unfold fromSet emptyR fullR
  dsimp only
  split
  · rfl
  · split
    · rfl
    · split <;> rfl

theorem zextOrTrunc_width (R : IntervalRange) (bits : Nat) :
    (R.zextOrTrunc bits).width = bits := by
  unfold zextOrTrunc zeroExtend truncate
  split
  · next h => exact h
  · split <;> exact fromSet_width _ _

theorem unionWith_width {A B : IntervalRange} (h : A.width = B.width) :
    (unionWith A B).width = A.width := by
  unfold unionWith
  dsimp only
  split
  · exact h.symm
  · split
    · rfl
    · split
      · exact h.symm
      · split
        · rfl
        · split
          · split <;> exact make_width _ _ _
          · split
            · exact make_width _ _ _
            · split
              · exact make_width _ _ _
              · rfl

theorem unionWith_wf {A B : IntervalRange} (hA : WF A) (hB : WF B) :
    WF (unionWith A B) := by
  unfold unionWith
  dsimp only
  split
  · exact hB
  · split
    · exact hA
    · split
      · exact hB
      · split
        · exact hA
        · split
          · split <;> exact make_wf _ _ _
          · split
            · exact make_wf _ _ _
            · split
              · exact make_wf _ _ _
              · exact fullR_wf _

theorem mem_unionWith_left {A B : IntervalRange} {x : Nat}
    (hx : x < 2 ^ A.width) (hm : A.mem x = true) :
    (unionWith A B).mem x = true := by
  unfold unionWith
  dsimp only
  split
  · next hAe => rw [mem_of_empty hAe] at hm; exact absurd hm (by simp)
  · split
    · exact hm
    · split
      · next hsub => exact (subsetB_iff.mp hsub) x hx hm
      · split
        · exact hm
        · split
          · next hok =>
            have hok12 := (Bool.and_eq_true _ _).mp hok
            have h1 := (Bool.and_eq_true _ _).mp hok12.1
            have h2 := (Bool.and_eq_true _ _).mp hok12.2
            split
            · exact (subsetB_iff.mp h1.1) x hx hm
            · exact (subsetB_iff.mp h2.1) x hx hm
          · split
            · next hok1 =>
              have h1 := (Bool.and_eq_true _ _).mp hok1
              exact (subsetB_iff.mp h1.1) x hx hm
            · split
              · next hok2 =>
                have h2 := (Bool.and_eq_true _ _).mp hok2
                exact (subsetB_iff.mp h2.1) x hx hm
              · exact mem_fullR hx

theorem mem_unionWith_right {A B : IntervalRange} {x : Nat}
    (hx : x < 2 ^ A.width) (hm : B.mem x = true) :
    (unionWith A B).mem x = true := by
  unfold unionWith
  dsimp only
  split
  · exact hm
  · split
    · next hBe => rw [mem_of_empty hBe] at hm; exact absurd hm (by simp)
    · split
      · exact hm
      · split
        · next hsub => exact (subsetB_iff.mp hsub) x hx hm
        · split
          · next hok =>
            have hok12 := (Bool.and_eq_true _ _).mp hok
            have h1 := (Bool.and_eq_true _ _).mp hok12.1
            have h2 := (Bool.and_eq_true _ _).mp hok12.2
            split
            · exact (subsetB_iff.mp h1.2) x hx hm
            · exact (subsetB_iff.mp h2.2) x hx hm
          · split
            · next hok1 =>
              have h1 := (Bool.and_eq_true _ _).mp hok1
              exact (subsetB_iff.mp h1.2) x hx hm
            · split
              · next hok2 =>
                have h2 := (Bool.and_eq_true _ _).mp hok2
                exact (subsetB_iff.mp h2.2) x hx hm
              · exact mem_fullR hx

end IntervalRange

namespace IntervalRange

theorem pred_eq {m s : Nat} (hm : 0 < m) (hs : s < m) :
    (s + m - 1) % m = if s = 0 then m - 1 else s - 1 := by
  split
  · next h => subst h; rw [Nat.zero_add, Nat.mod_eq_of_lt (by omega)]
  · next h =>
    have hsplit : s + m - 1 = m + (s - 1) := by omega
    rw [hsplit, Nat.add_mod_left, Nat.mod_eq_of_lt (by omega)]

theorem succ_eq {m s : Nat} (hs : s < m) :
    (s + 1) % m = if s + 1 = m then 0 else s + 1 := by
  split
  · next h => rw [h, Nat.mod_self]
  · next h => rw [Nat.mod_eq_of_lt (by omega)]

theorem mem_pred_lo {R : IntervalRange} (h : WF R) (hne : R.isEmpty = false)
    (hnf : ¬(R.lo = 0 ∧ R.hi = 2 ^ R.width - 1)) :
    R.mem ((R.lo + 2 ^ R.width - 1) % 2 ^ R.width) = false := by
  obtain ⟨hlo, hhi, -, hcov⟩ := h
  have hm := two_pow_pos R.width
  have hcov2 := hcov hne
  rw [not_and_or] at hnf
  rw [pred_eq hm hlo, Bool.eq_false_iff]
  intro hmem
  rw [mem_iff] at hmem
  obtain ⟨-, hmem⟩ := hmem
  by_cases hl0 : R.lo = 0
  · rw [if_pos hl0] at hmem
    split at hmem <;> omega
  · rw [if_neg hl0] at hmem
    split at hmem
    · omega
    · have hcontra : R.lo = (R.hi + 1) % 2 ^ R.width := by
        rw [Nat.mod_eq_of_lt (by omega)]
        omega
      have := hcov2 hcontra
      omega

theorem eq_lo_of_mem_pred_not {R : IntervalRange} {x : Nat} (h : WF R)
    (hx : x < 2 ^ R.width) (hmx : R.mem x = true)
    (hmp : R.mem ((x + 2 ^ R.width - 1) % 2 ^ R.width) = false) : x = R.lo := by
  obtain ⟨hlo, hhi, -, -⟩ := h
  have hm := two_pow_pos R.width
  have hne := not_empty_of_mem hmx
  rw [mem_iff] at hmx
  obtain ⟨-, hmx⟩ := hmx
  rw [pred_eq hm hx, Bool.eq_false_iff] at hmp
  by_cases hx0 : x = 0
  · subst hx0
    rw [if_pos rfl] at hmp
    split at hmx
    · omega
    · exfalso
      apply hmp
      rw [mem_iff]
      refine ⟨hne, ?_⟩
      split <;> omega
  · rw [if_neg hx0] at hmp
    by_contra hgoal
    apply hmp
    rw [mem_iff]
    refine ⟨hne, ?_⟩
    split at hmx <;> split <;> omega

theorem mem_succ_hi {R : IntervalRange} (h : WF R) (hne : R.isEmpty = false)
    (hnf : ¬(R.lo = 0 ∧ R.hi = 2 ^ R.width - 1)) :
    R.mem ((R.hi + 1) % 2 ^ R.width) = false := by
  obtain ⟨hlo, hhi, -, hcov⟩ := h
  have hm := two_pow_pos R.width
  have hcov2 := hcov hne
  rw [not_and_or] at hnf
  rw [succ_eq hhi, Bool.eq_false_iff]
  intro hmem
  rw [mem_iff] at hmem
  obtain ⟨-, hmem⟩ := hmem
  by_cases hh : R.hi + 1 = 2 ^ R.width
  · rw [if_pos hh] at hmem
    split at hmem <;> omega
  · rw [if_neg hh] at hmem
    split at hmem
    · omega
    · have hcontra : R.lo = (R.hi + 1) % 2 ^ R.width := by
        rw [Nat.mod_eq_of_lt (by omega)]
        omega
      have := hcov2 hcontra
      omega

theorem eq_hi_of_mem_succ_not {R : IntervalRange} {x : Nat} (h : WF R)
    (hx : x < 2 ^ R.width) (hmx : R.mem x = true)
    (hms : R.mem ((x + 1) % 2 ^ R.width) = false) : x = R.hi := by
  obtain ⟨hlo, hhi, -, -⟩ := h
  have hm := two_pow_pos R.width
  have hne := not_empty_of_mem hmx
  rw [mem_iff] at hmx
  obtain ⟨-, hmx⟩ := hmx
  rw [succ_eq hx, Bool.eq_false_iff] at hms
  by_cases hxm : x + 1 = 2 ^ R.width
  · rw [if_pos hxm] at hms
    split at hmx
    · omega
    · by_contra hgoal
      apply hms
      rw [mem_iff]
      refine ⟨hne, ?_⟩
      split <;> omega
  · rw [if_neg hxm] at hms
    by_contra hgoal
    apply hms
    rw [mem_iff]
    refine ⟨hne, ?_⟩
    split at hmx <;> split <;> omega

theorem full_of_all_mem {R : IntervalRange} (h : WF R) (hne : R.isEmpty = false)
    (hall : ∀ x, x < 2 ^ R.width → R.mem x = true) :
    R.lo = 0 ∧ R.hi = 2 ^ R.width - 1 := by
  obtain ⟨hlo, hhi, -, hcov⟩ := h
  have hm := two_pow_pos R.width
  have hcov2 := hcov hne
  by_cases hle : R.lo ≤ R.hi
  · have h0 := hall 0 hm
    have h1 := hall (2 ^ R.width - 1) (by omega)
    rw [mem_iff] at h0 h1
    obtain ⟨-, h0⟩ := h0
    obtain ⟨-, h1⟩ := h1
    rw [if_pos hle] at h0 h1
    omega
  · exfalso
    have hlt : R.hi + 1 < 2 ^ R.width := by omega
    by_cases heq : R.lo = R.hi + 1
    · have := hcov2 (by rw [Nat.mod_eq_of_lt hlt]; omega)
      omega
    · have h2 := hall (R.hi + 1) hlt
      rw [mem_iff] at h2
      obtain ⟨-, h2⟩ := h2
      rw [if_neg hle] at h2
      omega

theorem range_ext {A B : IntervalRange} (hA : WF A) (hB : WF B)
    (hw : A.width = B.width)
    (hmem : ∀ x, x < 2 ^ A.width → A.mem x = B.mem x) : A = B := by
  have hm := two_pow_pos A.width
  have hm2 : 2 ^ A.width = 2 ^ B.width := by rw [hw]
  have hemp : A.isEmpty = B.isEmpty := by
    by_cases hAe : A.isEmpty = true
    · by_cases hBe : B.isEmpty = true
      · rw [hAe, hBe]
      · exfalso
        have hBne : B.isEmpty = false := Bool.not_eq_true _ |>.mp hBe
        have hmB := mem_lo hBne
        have hlt : B.lo < 2 ^ A.width := by rw [hm2]; exact hB.1
        rw [← hmem B.lo hlt, mem_of_empty hAe] at hmB
        exact absurd hmB (by simp)
    · by_cases hBe : B.isEmpty = true
      · exfalso
        have hAne : A.isEmpty = false := Bool.not_eq_true _ |>.mp hAe
        have hmA := mem_lo hAne
        rw [hmem A.lo hA.1, mem_of_empty hBe] at hmA
        exact absurd hmA (by simp)
      · rw [Bool.not_eq_true] at hAe hBe
        rw [hAe, hBe]
  by_cases hAe : A.isEmpty = true
  · have hBe : B.isEmpty = true := by rw [← hemp]; exact hAe
    have e1 := hA.2.2.1 hAe
    have e2 := hB.2.2.1 hBe
    obtain ⟨wA, loA, hiA, eA⟩ := A
    obtain ⟨wB, loB, hiB, eB⟩ := B
    simp only [mk.injEq]
    simp only at hw hemp e1 e2
    exact ⟨hw, by omega, by omega, hemp⟩
  · have hAne : A.isEmpty = false := Bool.not_eq_true _ |>.mp hAe
    have hBne : B.isEmpty = false := by rw [← hemp]; exact hAne
    by_cases hAf : A.lo = 0 ∧ A.hi = 2 ^ A.width - 1
    · have hallA : ∀ x, x < 2 ^ A.width → A.mem x = true := by
        intro x hx
        obtain ⟨hf1, hf2⟩ := hAf
        rw [mem_iff]
        refine ⟨hAne, ?_⟩
        split <;> omega
      have hallB : ∀ x, x < 2 ^ B.width → B.mem x = true := by
        intro x hx
        rw [← hmem x (by rw [hm2]; exact hx)]
        exact hallA x (by rw [hm2]; exact hx)
      have hBf := full_of_all_mem hB hBne hallB
      obtain ⟨hf1, hf2⟩ := hAf
      obtain ⟨hg1, hg2⟩ := hBf
      obtain ⟨wA, loA, hiA, eA⟩ := A
      obtain ⟨wB, loB, hiB, eB⟩ := B
      simp only [mk.injEq]
      simp only at hw hemp hf1 hf2 hg1 hg2
      refine ⟨hw, by omega, by rw [hf2, hg2, hw], hemp⟩
    · have hBf : ¬(B.lo = 0 ∧ B.hi = 2 ^ B.width - 1) := by
        intro hBfull
        apply hAf
        apply full_of_all_mem hA hAne
        intro x hx
        rw [hmem x hx, mem_iff]
        refine ⟨hBne, ?_⟩
        obtain ⟨hf1, hf2⟩ := hBfull
        have hmB := two_pow_pos B.width
        have hxB : x < 2 ^ B.width := by rw [← hm2]; exact hx
        split <;> omega
      have hl : A.lo = B.lo := by
        apply eq_lo_of_mem_pred_not hB
        · rw [← hm2]; exact hA.1
        · rw [← hmem A.lo hA.1]
          exact mem_lo hAne
        · rw [← hm2, ← hmem _ (Nat.mod_lt _ hm)]
          exact mem_pred_lo hA hAne hAf
      have hh : A.hi = B.hi := by
        apply eq_hi_of_mem_succ_not hB
        · rw [← hm2]; exact hA.2.1
        · rw [← hmem A.hi hA.2.1]
          exact mem_hi hAne
        · rw [← hm2, ← hmem _ (Nat.mod_lt _ hm)]
          exact mem_succ_hi hA hAne hAf
      obtain ⟨wA, loA, hiA, eA⟩ := A
      obtain ⟨wB, loB, hiB, eB⟩ := B
      simp only [mk.injEq]
      simp only at hw hemp hl hh
      exact ⟨hw, hl, hh, hemp⟩

/-- `A` contains `B` as a set of machine words of the same width. -/
def Contains (A B : IntervalRange) : Prop :=
  A.width = B.width ∧ ∀ x, x < 2 ^ B.width → B.mem x = true → A.mem x = true

theorem contains_refl (A : IntervalRange) : Contains A A :=
  ⟨rfl, fun _ _ h => h⟩

theorem contains_trans {A B C : IntervalRange} (h1 : Contains A B)
    (h2 : Contains B C) : Contains A C := by
  obtain ⟨hw1, hm1⟩ := h1
  obtain ⟨hw2, hm2⟩ := h2
  refine ⟨hw1.trans hw2, fun x hx hm => ?_⟩
  apply hm1
  · rw [hw2]; exact hx
  · exact hm2 x hx hm

theorem contains_fullR {A : IntervalRange} {w : Nat} (hw : A.width = w) :
    Contains (fullR w) A := by
  refine ⟨hw.symm, fun _ hx _ => ?_⟩
  rw [hw] at hx
  exact mem_fullR hx

theorem contains_unionWith_left {A B : IntervalRange} (h : A.width = B.width) :
    Contains (unionWith A B) A :=
  ⟨unionWith_width h, fun _ hx hm => mem_unionWith_left hx hm⟩

theorem contains_unionWith_right {A B : IntervalRange} (h : A.width = B.width) :
    Contains (unionWith A B) B := by
  refine ⟨(unionWith_width h).trans h, fun x hx hm => ?_⟩
  rw [← h] at hx
  exact mem_unionWith_right hx hm

theorem unionWith_of_empty_left {A B : IntervalRange} (hAe : A.isEmpty = true) :
    unionWith A B = B := by
  unfold unionWith
  dsimp only
  rw [if_pos hAe]

theorem unionWith_of_empty_right {A B : IntervalRange} (hAne : A.isEmpty = false)
    (hBe : B.isEmpty = true) : unionWith A B = A := by
  unfold unionWith
  dsimp only
  rw [if_neg (by simp [hAne]), if_pos hBe]

theorem unionWith_of_subset_left {A B : IntervalRange} (hAne : A.isEmpty = false)
    (hBne : B.isEmpty = false) (hsub : subsetB (2 ^ A.width) A B = true) :
    unionWith A B = B := by
  unfold unionWith
  dsimp only
  rw [if_neg (by simp [hAne]), if_neg (by simp [hBne]), if_pos hsub]

theorem unionWith_of_subset_right {A B : IntervalRange} (hAne : A.isEmpty = false)
    (hBne : B.isEmpty = false) (hnsub : subsetB (2 ^ A.width) A B = false)
    (hsub : subsetB (2 ^ A.width) B A = true) :
    unionWith A B = A := by
  unfold unionWith
  dsimp only
  rw [if_neg (by simp [hAne]), if_neg (by simp [hBne]), if_neg (by simp [hnsub]),
    if_pos hsub]

theorem unionWith_absorb {A B : IntervalRange} (hA : WF A) (hB : WF B)
    (hw : A.width = B.width) :
    unionWith A (unionWith A B) = unionWith A B ∧
      unionWith (unionWith A B) A = unionWith A B := by
  have hSw : (unionWith A B).width = A.width := unionWith_width hw
  have hSwf : WF (unionWith A B) := unionWith_wf hA hB
  by_cases hAe : A.isEmpty = true
  · have hSB : unionWith A B = B := unionWith_of_empty_left hAe
    constructor
    · exact unionWith_of_empty_left hAe
    · rw [hSB]
      by_cases hBe : B.isEmpty = true
      · rw [unionWith_of_empty_left hBe]
        exact range_ext hA hB hw (fun x hx => by
          rw [mem_of_empty hAe, mem_of_empty hBe])
      · have hBne : B.isEmpty = false := Bool.not_eq_true _ |>.mp hBe
        exact unionWith_of_empty_right hBne hAe
  · have hAne : A.isEmpty = false := Bool.not_eq_true _ |>.mp hAe
    have hSne : (unionWith A B).isEmpty = false :=
      not_empty_of_mem (mem_unionWith_left hA.1 (mem_lo hAne))
    have hsub : subsetB (2 ^ A.width) A (unionWith A B) = true := by
      rw [subsetB_iff]
      intro x hx hm
      exact mem_unionWith_left hx hm
    constructor
    · exact unionWith_of_subset_left hAne hSne hsub
    · by_cases hSA : subsetB (2 ^ (unionWith A B).width) (unionWith A B) A = true
      · rw [unionWith_of_subset_left hSne hAne hSA]
        apply range_ext hA hSwf hSw.symm
        intro x hx
        by_cases hmA : A.mem x = true
        · rw [hmA, (subsetB_iff.mp hsub) x hx hmA]
        · by_cases hmS : (unionWith A B).mem x = true
          · exact absurd ((subsetB_iff.mp hSA) x (by rw [hSw]; exact hx) hmS) hmA
          · rw [Bool.not_eq_true] at hmA hmS
            rw [hmA, hmS]
      · have hAS2 : subsetB (2 ^ (unionWith A B).width) A (unionWith A B) = true := by
          rw [hSw]; exact hsub
        exact unionWith_of_subset_right hSne hAne (Bool.not_eq_true _ |>.mp hSA) hAS2

end IntervalRange

/-- The integer comparison predicates of `ICmpInst`. -/
inductive CmpPred
  | eq | ne | ult | ule | ugt | uge | slt | sle | sgt | sge
deriving DecidableEq, Repr

/-- `CmpInst::getSwappedPredicate`. -/
def swappedPred : CmpPred → CmpPred
  | .eq => .eq
  | .ne => .ne
  | .ult => .ugt
  | .ule => .uge
  | .ugt => .ult
  | .uge => .ule
  | .slt => .sgt
  | .sle => .sge
  | .sgt => .slt
  | .sge => .sle

/-- `CmpInst::getInversePredicate`. -/
def inversePred : CmpPred → CmpPred
  | .eq => .ne
  | .ne => .eq
  | .ult => .uge
  | .ule => .ugt
  | .ugt => .ule
  | .uge => .ult
  | .slt => .sge
  | .sle => .sgt
  | .sgt => .sle
  | .sge => .slt

/-- Truth of an integer comparison on two `w`-bit words. -/
def icmpB (p : CmpPred) (w x y : Nat) : Bool :=
  match p with
  | .eq => decide (x = y)
  | .ne => decide (x ≠ y)
  | .ult => decide (x < y)
  | .ule => decide (x ≤ y)
  | .ugt => decide (y < x)
  | .uge => decide (y ≤ x)
  | .slt => decide (IntervalRange.toSigned w x < IntervalRange.toSigned w y)
  | .sle => decide (IntervalRange.toSigned w x ≤ IntervalRange.toSigned w y)
  | .sgt => decide (IntervalRange.toSigned w y < IntervalRange.toSigned w x)
  | .sge => decide (IntervalRange.toSigned w y ≤ IntervalRange.toSigned w x)

namespace IntervalRange

/-- Modelled from the spec: "derive the sub-range of each operand consistent
with the comparison holding ... using the comparison predicate applied to the
*other* operand's range" (§4.5): the smallest interval containing every word
that can satisfy `x pred y` for some `y` in `Other`
(`ConstantRange::makeICmpRegion`). -/
def makeICmpRegion (p : CmpPred) (Other : IntervalRange) : IntervalRange :=
  let w := Other.width
  let m := 2 ^ w
  let ys := (List.range m).filter (fun y => Other.mem y)
  fromSet w (fun x => ys.any (fun y => icmpB p w x y))

/-- Pointwise lifting of a modular binary word operation to intervals
(smallest covering interval of the image); `gOp` receives `2 ^ w` as its
first argument. -/
def liftBin (gOp : Nat → Nat → Nat → Nat) (A B : IntervalRange) : IntervalRange :=
  let w := A.width
  let m := 2 ^ w
  fromSet w (fun z => (List.range m).any (fun x => A.mem x &&
    (List.range m).any (fun y => B.mem y && decide (gOp m x y % m = z))))

/-- Modelled from the spec: sound wraparound addition (§4.1). -/
def addR (A B : IntervalRange) : IntervalRange := liftBin (fun _ x y => x + y) A B

/-- Modelled from the spec: sound wraparound subtraction (§4.1). -/
def subR (A B : IntervalRange) : IntervalRange := liftBin (fun m x y => x + m - y) A B

/-- Modelled from the spec: sound wraparound multiplication (§4.1). -/
def multiply (A B : IntervalRange) : IntervalRange := liftBin (fun _ x y => x * y) A B

/-- Modelled from the spec: unsigned division (§4.1). -/
def udivR (A B : IntervalRange) : IntervalRange := liftBin (fun _ x y => x / y) A B

/-- Modelled from the spec: logical shift left (§4.1). -/
def shlR (A B : IntervalRange) : IntervalRange := liftBin (fun _ x y => x * 2 ^ y) A B

/-- Modelled from the spec: logical shift right (§4.1). -/
def lshrR (A B : IntervalRange) : IntervalRange := liftBin (fun _ x y => x / 2 ^ y) A B

/-- Modelled from the spec: bitwise and (§4.1). -/
def binaryAnd (A B : IntervalRange) : IntervalRange := liftBin (fun _ x y => x &&& y) A B

/-- Modelled from the spec: bitwise or (§4.1). -/
def binaryOr (A B : IntervalRange) : IntervalRange := liftBin (fun _ x y => x ||| y) A B

end IntervalRange

/-- LLVM types as far as the pass inspects them: integer types, pointers to
integer types, and everything else (including pointers to non-integer types,
whose element-type cast in `getRange` also yields null). -/
inductive Ty
  | int (w : Nat)
  | ptrToInt (w : Nat)
  | other
deriving DecidableEq, Repr

/-- LLVM values as far as the pass inspects them: integer constants
(`ConstantInt`), call instructions (`CallInst`, with their inline-asm flag),
and all remaining values (arguments, loads, pointers, instruction
results, ...), identified by an opaque id. -/
inductive Val
  | constInt (w v : Nat)
  | callV (id : Nat) (ty : Ty) (inlineAsm : Bool)
  | someVal (id : Nat) (ty : Ty)
deriving DecidableEq, Repr

/-- `V->getType()`. -/
def Val.ty : Val → Ty
  | .constInt w _ => .int w
  | .callV _ t _ => t
  | .someVal _ t => t

/-- `V->getType()->isIntegerTy()`. -/
def Val.isIntegerTy (v : Val) : Bool :=
  match v.ty with
  | .int _ => true
  | _ => false

/-- The integer type resolved at Range.cc:102-105: the type itself if it is
an integer type, else the pointee type of a pointer to an integer type;
`none` makes the `assert(Ty != NULL)` at line 106 fail. -/
def tyIntWidth : Ty → Option Nat
  | .int w => some w
  | .ptrToInt w => some w
  | .other => none

/-- The strict `dyn_cast<IntegerType>(I->getType())` at Range.cc:339. -/
def tyIntOnly : Ty → Option Nat
  | .int w => some w
  | _ => none

/-- Association-list lookup (`Map::find`). -/
def alookup {α β : Type} [DecidableEq α] : List (α × β) → α → Option β
  | [], _ => none
  | (k, v) :: rest, a => if k = a then some v else alookup rest a

/-- Association-list update, inserting at the tail when the key is absent. -/
def aset {α β : Type} [DecidableEq α] : List (α × β) → α → β → List (α × β)
  | [], a, b => [(a, b)]
  | (k, v) :: rest, a, b => if k = a then (k, b) :: rest else (k, v) :: aset rest a b

/-- `Map::insert`: inserts only when the key is absent (C++ map semantics). -/
def ainsert {α β : Type} [DecidableEq α] (l : List (α × β)) (a : α) (b : β) :
    List (α × β) :=
  match alookup l a with
  | some _ => l
  | none => aset l a b

/-- `RangeMap`: the GlobalRangeTable, SymbolicID → range (`Ctx->IntRanges`). -/
abbrev RangeMap := List (String × IntervalRange)

/-- `ValueRangeMap`: one block's local value → range map. -/
abbrev ValueRangeMap := List (Val × IntervalRange)

/-- `FuncVRMs`: per-block local maps of the function being swept. -/
abbrev FuncVRMsT := List (Nat × ValueRangeMap)

/-- Modelled from the spec: the external collaborators of §6 — the
callee-resolution oracle (`Ctx->Callees`), the symbolic naming oracle
(`getRetId`/`getArgId`/`getValueId` from the missing `Annotation.h`), the
taint-source oracle (`TaintPass::isTaintSource`) and, for branch conditions,
the `dyn_cast<ICmpInst>` view of a value together with the icmp's parent
block (`ICI->getParent()`).  `varArgOrIntrinsic` answers the callee filter
`isVarArg() || name contains a dot` of Range.cc:285-286. -/
structure AnalysisCtx where
  callees : Val → Option (List String)
  retIdF : String → String
  retIdC : Val → String
  argId : String → Nat → String
  valueId : Val → String
  taint : String → Bool
  icmpDef : Val → Option (CmpPred × Val × Val × Nat)
  varArgOrIntrinsic : String → Bool

/-- The mutable global analysis state: the GlobalRangeTable `Ctx->IntRanges`
and the sweep's ChangeSet `Changes`. -/
structure GState where
  intRanges : RangeMap
  changes : List String
deriving DecidableEq, Repr

/-- `conv_and_warn_if_unmatch` (Range.cc:28-35): on a width mismatch the
second range is zero-extended or truncated to the first range's width; the
returned flag records that the warning was printed.  Never fatal. -/
def conv_and_warn_if_unmatch (V1 V2 : IntervalRange) :
    IntervalRange × IntervalRange × Bool :=
  if V1.width ≠ V2.width then (V1, V2.zextOrTrunc V1.width, true)
  else (V1, V2, false)

namespace RangePass

/-- `RangePass::safeUnion` (Range.cc:37-43): normalise the incoming range to
the stored range's width, union it in, and report whether the stored range
changed. -/
def safeUnion (CR R : IntervalRange) : IntervalRange × Bool :=
  let Old := CR
  let (CR1, V, _) := conv_and_warn_if_unmatch CR R
  let CR2 := CR1.unionWith V
  (CR2, decide (Old ≠ CR2))

/-- `ChangeSet::insert`. -/
def insertChange (cs : List String) (sID : String) : List String :=
  if sID ∈ cs then cs else cs ++ [sID]

/-- `RangePass::unionRange(StringRef, const ConstantRange &, Value *)`
(Range.cc:45-72).  The `WatchID` debug printing is purely observational and
omitted. -/
def unionRangeS (gs : GState) (sID : String) (R : IntervalRange) :
    GState × Bool :=
  if R.isEmpty then (gs, false)
  else
    match alookup gs.intRanges sID with
    | some old =>
      let (newR, changed) := safeUnion old R
      if changed then
        (⟨aset gs.intRanges sID newR, insertChange gs.changes sID⟩, true)
      else (⟨aset gs.intRanges sID newR, gs.changes⟩, false)
    | none =>
      (⟨aset gs.intRanges sID R, insertChange gs.changes sID⟩, true)

/-- `FuncVRMs[BB]` (DenseMap subscript: empty map when absent). -/
def fvrmGet (fvrms : FuncVRMsT) (bb : Nat) : ValueRangeMap :=
  (alookup fvrms bb).getD []

/-- `RangePass::unionRange(BasicBlock *, Value *, const ConstantRange &)`
(Range.cc:74-88). -/
def unionRangeB (fvrms : FuncVRMsT) (bb : Nat) (V : Val) (R : IntervalRange) :
    FuncVRMsT × Bool :=
  if R.isEmpty then (fvrms, false)
  else
    let vrm := fvrmGet fvrms bb
    match alookup vrm V with
    | some old =>
      let (newR, changed) := safeUnion old R
      (aset fvrms bb (aset vrm V newR), changed)
    | none => (aset fvrms bb (aset vrm V R), true)

/-- The callee loop of `getRange` (Range.cc:119-129): union the return
ranges of all possible callees, going to the full set at the first callee
whose return id is a taint source. -/
def calleeRetFold (ctx : AnalysisCtx) (gs : GState) (w : Nat) :
    IntervalRange → List String → IntervalRange
  | CR, [] => CR
  | CR, f :: rest =>
    let sID := ctx.retIdF f
    if sID ≠ "" ∧ ctx.taint sID = true then IntervalRange.fullR w
    else
      let CR2 :=
        match alookup gs.intRanges sID with
        | some r => (safeUnion CR r).1
        | none => CR
      calleeRetFold ctx gs w CR2 rest

/-- `RangePass::getRange` (Range.cc:90-147).  Returns `none` exactly when
the `assert(Ty != NULL)` at line 106 fails; otherwise returns the resolved
range and the local maps with the non-empty result memoised. -/
def getRange (ctx : AnalysisCtx) (gs : GState) (fvrms : FuncVRMsT) (bb : Nat)
    (V : Val) : Option (IntervalRange × FuncVRMsT) :=
  match V with
  | .constInt w v => some (IntervalRange.constRange w v, fvrms)
  | _ =>
    let vrm := fvrmGet fvrms bb
    match alookup vrm V with
    | some cr => some (cr, fvrms)
    | none =>
      match tyIntWidth V.ty with
      | none => none
      | some w =>
        let CR :=
          match V with
          | .callV _ _ inlineAsm =>
            if inlineAsm = false then
              match ctx.callees V with
              | some CEEs => calleeRetFold ctx gs w (IntervalRange.emptyR w) CEEs
              | none => IntervalRange.emptyR w
            else IntervalRange.emptyR w
          | _ =>
            let sID := ctx.valueId V
            let CR0 :=
              if sID ≠ "" then
                if ctx.taint sID = true then IntervalRange.fullR w
                else
                  match alookup gs.intRanges sID with
                  | some r => r
                  | none => IntervalRange.emptyR w
              else IntervalRange.emptyR w
            CR0.zextOrTrunc w
        if CR.isEmpty then some (CR, fvrms)
        else some (CR, aset fvrms bb (ainsert vrm V CR))

end RangePass

/-- The binary opcodes handled by `RangePass::visitBinaryOp`; any other
opcode hits `llvm_unreachable` (Range.cc:214), but the enumeration below is
exactly the set of cases of the source switch. -/
inductive BinOp
  | add | sub | mul | udiv | sdiv | urem | srem | shl | lshr | ashr | bAnd | bOr | bXor
deriving DecidableEq, Repr

/-- The cast opcodes handled by `RangePass::visitCastInst`; any other cast
hits `llvm_unreachable` (Range.cc:243). -/
inductive CastOp
  | trunc | zext | sext | ptrtoint | bitcast
deriving DecidableEq, Repr

namespace RangePass

/-- `RangePass::visitBinaryOp` (Range.cc:208-229).  The `FIXME` arms for
`SDiv`, `URem`, `SRem`, `AShr` and `Xor` return an operand range unchanged. -/
def visitBinaryOp (ctx : AnalysisCtx) (gs : GState) (fvrms : FuncVRMsT)
    (bb : Nat) (op : BinOp) (a b : Val) : Option (IntervalRange × FuncVRMsT) :=
  match getRange ctx gs fvrms bb a with
  | none => none
  | some (L0, fvrms1) =>
    match getRange ctx gs fvrms1 bb b with
    | none => none
    | some (R0, fvrms2) =>
      let (L, R, _) := conv_and_warn_if_unmatch L0 R0
      let CR :=
        match op with
        | .add => L.addR R
        | .sub => L.subR R
        | .mul => L.multiply R
        | .udiv => L.udivR R
        | .sdiv => L
        | .urem => R
        | .srem => R
        | .shl => L.shlR R
        | .lshr => L.lshrR R
        | .ashr => L
        | .bAnd => L.binaryAnd R
        | .bOr => L.binaryOr R
        | .bXor => L
      some (CR, fvrms2)

/-- `RangePass::visitCastInst` (Range.cc:232-249); `destW` is the bit width
of the destination integer type. -/
def visitCastInst (ctx : AnalysisCtx) (gs : GState) (fvrms : FuncVRMsT)
    (bb : Nat) (op : CastOp) (destW : Nat) (a : Val) :
    Option (IntervalRange × FuncVRMsT) :=
  if op = CastOp.ptrtoint then some (IntervalRange.fullR destW, fvrms)
  else
    match getRange ctx gs fvrms bb a with
    | none => none
    | some (CR, fvrms1) =>
      match op with
      | .trunc => some (CR.zextOrTrunc destW, fvrms1)
      | .zext => some (CR.zextOrTrunc destW, fvrms1)
      | .sext => some (CR.signExtend destW, fvrms1)
      | .bitcast => some (CR, fvrms1)
      | .ptrtoint => some (IntervalRange.fullR destW, fvrms1)

/-- `RangePass::visitSelectInst` (Range.cc:251-257): union of the two value
operands; the condition is not used. -/
def visitSelectInst (ctx : AnalysisCtx) (gs : GState) (fvrms : FuncVRMsT)
    (bb : Nat) (tv fv : Val) : Option (IntervalRange × FuncVRMsT) :=
  match getRange ctx gs fvrms bb tv with
  | none => none
  | some (T, f1) =>
    match getRange ctx gs f1 bb fv with
    | none => none
    | some (F, f2) => some ((safeUnion T F).1, f2)

/-- The incoming-edge loop of `RangePass::visitPHINode` (Range.cc:265-271):
union the ranges of all incoming values whose edge is not a back edge. -/
def phiFold (ctx : AnalysisCtx) (gs : GState) (backEdges : List (Nat × Nat))
    (myBB : Nat) :
    IntervalRange → FuncVRMsT → List (Nat × Val) → Option (IntervalRange × FuncVRMsT)
  | CR, fvrms, [] => some (CR, fvrms)
  | CR, fvrms, (pred, v) :: rest =>
    if (pred, myBB) ∈ backEdges then phiFold ctx gs backEdges myBB CR fvrms rest
    else
      match getRange ctx gs fvrms pred v with
      | none => none
      | some (r, fvrms2) =>
        phiFold ctx gs backEdges myBB (safeUnion CR r).1 fvrms2 rest

/-- `RangePass::visitPHINode` (Range.cc:259-273); `w` is the width of the
node's integer type (asserted non-null at line 262). -/
def visitPHINode (ctx : AnalysisCtx) (gs : GState) (backEdges : List (Nat × Nat))
    (fvrms : FuncVRMsT) (bb w : Nat) (incoming : List (Nat × Val)) :
    Option (IntervalRange × FuncVRMsT) :=
  phiFold ctx gs backEdges bb (IntervalRange.emptyR w) fvrms incoming

/-- The argument loop of `RangePass::visitCallInst` (Range.cc:289-296) for
one callee `f`. -/
def callArgsFold (ctx : AnalysisCtx) (f : String) (bb : Nat) (CI : Val) :
    GState → FuncVRMsT → Nat → List Val → Option (GState × FuncVRMsT × Bool)
  | gs, fvrms, _, [] => some (gs, fvrms, false)
  | gs, fvrms, j, v :: rest =>
    if v.isIntegerTy = false then callArgsFold ctx f bb CI gs fvrms (j + 1) rest
    else
      match getRange ctx gs fvrms bb v with
      | none => none
      | some (r, fvrms2) =>
        let (gs2, ch) := unionRangeS gs (ctx.argId f j) r
        match callArgsFold ctx f bb CI gs2 fvrms2 (j + 1) rest with
        | none => none
        | some (gs3, fvrms3, ch2) => some (gs3, fvrms3, ch || ch2)

/-- The callee loop of `RangePass::visitCallInst` (Range.cc:283-297),
skipping vararg and intrinsic callees. -/
def calleesFold (ctx : AnalysisCtx) (bb : Nat) (CI : Val) (args : List Val) :
    GState → FuncVRMsT → List String → Option (GState × FuncVRMsT × Bool)
  | gs, fvrms, [] => some (gs, fvrms, false)
  | gs, fvrms, f :: rest =>
    if ctx.varArgOrIntrinsic f = true then calleesFold ctx bb CI args gs fvrms rest
    else
      match callArgsFold ctx f bb CI gs fvrms 0 args with
      | none => none
      | some (gs2, fvrms2, ch) =>
        match calleesFold ctx bb CI args gs2 fvrms2 rest with
        | none => none
        | some (gs3, fvrms3, ch2) => some (gs3, fvrms3, ch || ch2)

/-- `RangePass::visitCallInst` (Range.cc:275-302). -/
def visitCallInst (ctx : AnalysisCtx) (gs : GState) (fvrms : FuncVRMsT)
    (bb : Nat) (CI : Val) (args : List Val) : Option (GState × FuncVRMsT × Bool) :=
  match CI with
  | .callV _ ty inlineAsm =>
    if inlineAsm = true then some (gs, fvrms, false)
    else
      match ctx.callees CI with
      | none => some (gs, fvrms, false)
      | some CEEs =>
        match calleesFold ctx bb CI args gs fvrms CEEs with
        | none => none
        | some (gs2, fvrms2, ch) =>
          match ty with
          | .int _ =>
            match getRange ctx gs2 fvrms2 bb CI with
            | none => none
            | some (r, fvrms3) =>
              let (gs3, ch2) := unionRangeS gs2 (ctx.retIdC CI) r
              some (gs3, fvrms3, ch || ch2)
          | _ => some (gs2, fvrms2, ch)
  | _ => some (gs, fvrms, false)

/-- `RangePass::visitStoreInst` (Range.cc:304-314).  `sid` is the naming
oracle's answer `getValueId(SI)` for this store. -/
def visitStoreInst (ctx : AnalysisCtx) (gs : GState) (fvrms : FuncVRMsT)
    (bb : Nat) (sid : String) (v p : Val) : Option (GState × FuncVRMsT × Bool) :=
  if v.isIntegerTy = true ∧ sid ≠ "" then
    match getRange ctx gs fvrms bb v with
    | none => none
    | some (CR, f1) =>
      let (f2, _) := unionRangeB f1 bb p CR
      let (gs2, changed) := unionRangeS gs sid CR
      some (gs2, f2, changed)
  else some (gs, fvrms, false)

/-- `RangePass::visitReturnInst` (Range.cc:316-324). -/
def visitReturnInst (ctx : AnalysisCtx) (gs : GState) (fvrms : FuncVRMsT)
    (bb : Nat) (fname : String) (rv : Option Val) :
    Option (GState × FuncVRMsT × Bool) :=
  match rv with
  | none => some (gs, fvrms, false)
  | some v =>
    if v.isIntegerTy = false then some (gs, fvrms, false)
    else
      match getRange ctx gs fvrms bb v with
      | none => none
      | some (CR, f1) =>
        let (gs2, changed) := unionRangeS gs (ctx.retIdF fname) CR
        some (gs2, f1, changed)

/-- `RangePass::visitBranchInst` (Range.cc:367-407).  `tSucc` is
`BI->getSuccessor(0)`; the refinement is inserted into the successor's map
copy `vrm` with `Map::insert` (no overwrite). -/
def visitBranchInst (ctx : AnalysisCtx) (gs : GState) (fvrms : FuncVRMsT)
    (isCond : Bool) (cond : Val) (tSucc bb : Nat) (vrm : ValueRangeMap) :
    Option (FuncVRMsT × ValueRangeMap) :=
  if isCond = false then some (fvrms, vrm)
  else
    match ctx.icmpDef cond with
    | none => some (fvrms, vrm)
    | some (p, lhs, rhs, iblk) =>
      if lhs.isIntegerTy = false ∨ rhs.isIntegerTy = false then some (fvrms, vrm)
      else
        match getRange ctx gs fvrms iblk lhs with
        | none => none
        | some (LCR0, f1) =>
          match getRange ctx gs f1 iblk rhs with
          | none => none
          | some (RCR0, f2) =>
            let (LCR, RCR, _) := conv_and_warn_if_unmatch LCR0 RCR0
            if bb = tSucc then
              let PLCR := IntervalRange.makeICmpRegion (swappedPred p) LCR
              let PRCR := IntervalRange.makeICmpRegion p RCR
              some (f2, ainsert (ainsert vrm lhs (LCR.intersectWith PRCR)) rhs
                (LCR.intersectWith PLCR))
            else
              let PLCR := IntervalRange.makeICmpRegion (inversePred (swappedPred p)) RCR
              let PRCR := IntervalRange.makeICmpRegion (inversePred p) RCR
              some (f2, ainsert (ainsert vrm lhs (LCR.intersectWith PRCR)) rhs
                (LCR.intersectWith PLCR))

/-- `RangePass::visitSwitchInst` (Range.cc:409-435).  `cases` pairs each
case value with its successor block. -/
def visitSwitchInst (ctx : AnalysisCtx) (gs : GState) (fvrms : FuncVRMsT)
    (predBB : Nat) (cond : Val) (cases : List (Nat × Nat)) (defaultSucc bb : Nat)
    (vrm : ValueRangeMap) : Option (FuncVRMsT × ValueRangeMap) :=
  match tyIntOnly cond.ty with
  | none => some (fvrms, vrm)
  | some w =>
    match getRange ctx gs fvrms predBB cond with
    | none => none
    | some (VCR, f1) =>
      let CR :=
        if defaultSucc ≠ bb then
          cases.foldl (fun acc c =>
            if c.2 = bb then (safeUnion acc (IntervalRange.constRange w c.1)).1
            else acc) (IntervalRange.emptyR w)
        else
          (cases.foldl (fun acc c =>
            (safeUnion acc (IntervalRange.constRange w c.1)).1)
            (IntervalRange.emptyR w)).inverse
      some (f1, ainsert vrm cond (VCR.intersectWith CR))

end RangePass

/-- Block terminators as far as the pass inspects them; `otherT` stands for
any terminator that is neither a branch, a switch nor a return. -/
inductive Terminator
  | brUncond (succ : Nat)
  | brCond (cond : Val) (tSucc fSucc : Nat)
  | switchT (cond : Val) (cases : List (Nat × Nat)) (defaultSucc : Nat)
  | retT (rv : Option Val)
  | otherT
deriving Repr

/-- The operation kinds `RangePass::updateRangeFor(Instruction *)`
dispatches on; `other` stands for any remaining instruction (e.g. an
`icmp`), which, when integer-typed, receives the default full range of
Range.cc:343.  The `sid` of a store is the naming oracle's answer
`getValueId(SI)`. -/
inductive Inst
  | store (sid : String) (v p : Val)
  | callI (res : Val) (args : List Val)
  | binop (res : Val) (op : BinOp) (a b : Val)
  | cast (res : Val) (op : CastOp) (a : Val)
  | select (res : Val) (c tv fv : Val)
  | phi (res : Val) (incoming : List (Nat × Val))
  | load (res : Val) (p : Val)
  | other (res : Val)
deriving Repr

/-- A basic block: label, predecessor labels, the non-terminator
instructions in order, and the terminator. -/
structure BasicBlock where
  id : Nat
  preds : List Nat
  insts : List Inst
  term : Terminator
deriving Repr

/-- A function: name, blocks in layout order and its back-edge set.  The
back edges model the output of LLVM's `FindFunctionBackedges`
(Range.cc:495), which is not part of the repository sources. -/
structure Func where
  name : String
  blocks : List BasicBlock
  backEdges : List (Nat × Nat)
deriving Repr

/-- `Pred->getTerminator()`. -/
def blockTerm (F : Func) (bbId : Nat) : Terminator :=
  match F.blocks.find? (fun b => b.id == bbId) with
  | some b => b.term
  | none => Terminator.otherT

namespace RangePass

/-- `RangePass::visitTerminator` (Range.cc:437-446): branches refine via
`visitBranchInst`, switches via `visitSwitchInst`, anything else hits
`llvm_unreachable`. -/
def visitTerminator (ctx : AnalysisCtx) (gs : GState) (fvrms : FuncVRMsT)
    (predBB : Nat) (t : Terminator) (bb : Nat) (vrm : ValueRangeMap) :
    Option (FuncVRMsT × ValueRangeMap) :=
  match t with
  | .brUncond _ => some (fvrms, vrm)
  | .brCond cond tSucc _ => visitBranchInst ctx gs fvrms true cond tSucc bb vrm
  | .switchT cond cases dflt => visitSwitchInst ctx gs fvrms predBB cond cases dflt bb vrm
  | .retT _ => none
  | .otherT => none

/-- `RangePass::updateRangeFor(Instruction *)` (Range.cc:326-360). -/
def updateRangeForInst (ctx : AnalysisCtx) (backEdges : List (Nat × Nat)) :
    GState → FuncVRMsT → Nat → Inst → Option (GState × FuncVRMsT × Bool)
  | gs, fvrms, bb, .store sid v p =>
    visitStoreInst ctx gs fvrms bb sid v p
  | gs, fvrms, bb, .callI res args =>
    match visitCallInst ctx gs fvrms bb res args with
    | none => none
    | some (gs2, f2, changed) =>
      match tyIntOnly res.ty with
      | none => some (gs2, f2, changed)
      | some _ =>
        match getRange ctx gs2 f2 bb res with
        | none => none
        | some (CR, f3) =>
          let (f4, _) := unionRangeB f3 bb res CR
          some (gs2, f4, changed)
  | gs, fvrms, bb, .binop res op a b =>
    match tyIntOnly res.ty with
    | none => some (gs, fvrms, false)
    | some _ =>
      match visitBinaryOp ctx gs fvrms bb op a b with
      | none => none
      | some (CR, f2) =>
        let (f3, _) := unionRangeB f2 bb res CR
        some (gs, f3, false)
  | gs, fvrms, bb, .cast res op a =>
    match tyIntOnly res.ty with
    | none => some (gs, fvrms, false)
    | some w =>
      match visitCastInst ctx gs fvrms bb op w a with
      | none => none
      | some (CR, f2) =>
        let (f3, _) := unionRangeB f2 bb res CR
        some (gs, f3, false)
  | gs, fvrms, bb, .select res _c tv fv =>
    match tyIntOnly res.ty with
    | none => some (gs, fvrms, false)
    | some _ =>
      match visitSelectInst ctx gs fvrms bb tv fv with
      | none => none
      | some (CR, f2) =>
        let (f3, _) := unionRangeB f2 bb res CR
        some (gs, f3, false)
  | gs, fvrms, bb, .phi res incoming =>
    match tyIntOnly res.ty with
    | none => some (gs, fvrms, false)
    | some w =>
      match visitPHINode ctx gs backEdges fvrms bb w incoming with
      | none => none
      | some (CR, f2) =>
        let (f3, _) := unionRangeB f2 bb res CR
        some (gs, f3, false)
  | gs, fvrms, bb, .load res _p =>
    match tyIntOnly res.ty with
    | none => some (gs, fvrms, false)
    | some _ =>
      match getRange ctx gs fvrms bb res with
      | none => none
      | some (CR, f2) =>
        let (f3, _) := unionRangeB f2 bb res CR
        some (gs, f3, false)
  | gs, fvrms, bb, .other res =>
    match tyIntOnly res.ty with
    | none => some (gs, fvrms, false)
    | some w =>
      let (f2, _) := unionRangeB fvrms bb res (IntervalRange.fullR w)
      some (gs, f2, false)

/-- The per-entry union of a refined predecessor copy into the block's own
map (Range.cc:470-477). -/
def mergeVRM : ValueRangeMap → ValueRangeMap → ValueRangeMap
  | bbvrm, [] => bbvrm
  | bbvrm, (k, v) :: rest =>
    match alookup bbvrm k with
    | some old => mergeVRM (aset bbvrm k (safeUnion old v).1) rest
    | none => mergeVRM (aset bbvrm k v) rest

/-- The predecessor loop of `RangePass::updateRangeFor(BasicBlock *)`
(Range.cc:455-478): skip back edges, copy the predecessor's map, refine it
by the predecessor's terminator, and union it into this block's map. -/
def predsFold (ctx : AnalysisCtx) (gs : GState) (F : Func)
    (backEdges : List (Nat × Nat)) (bbId : Nat) :
    FuncVRMsT → List Nat → Option FuncVRMsT
  | fvrms, [] => some fvrms
  | fvrms, pred :: rest =>
    if (pred, bbId) ∈ backEdges then predsFold ctx gs F backEdges bbId fvrms rest
    else
      let predVRM := fvrmGet fvrms pred
      match visitTerminator ctx gs fvrms pred (blockTerm F pred) bbId predVRM with
      | none => none
      | some (f2, vrm2) =>
        let bbvrm := fvrmGet f2 bbId
        predsFold ctx gs F backEdges bbId (aset f2 bbId (mergeVRM bbvrm vrm2)) rest

/-- The instruction loop of `RangePass::updateRangeFor(BasicBlock *)`
(Range.cc:481-484). -/
def instsFold (ctx : AnalysisCtx) (backEdges : List (Nat × Nat)) (bb : Nat) :
    GState → FuncVRMsT → List Inst → Bool → Option (GState × FuncVRMsT × Bool)
  | gs, fvrms, [], acc => some (gs, fvrms, acc)
  | gs, fvrms, i :: rest, acc =>
    match updateRangeForInst ctx backEdges gs fvrms bb i with
    | none => none
    | some (gs2, f2, ch) => instsFold ctx backEdges bb gs2 f2 rest (acc || ch)

/-- `RangePass::updateRangeFor(BasicBlock *)` (Range.cc:449-487).  The
terminator is the block's last instruction; of the terminators only a
`ReturnInst` contributes to `updateRangeFor(Instruction *)`. -/
def updateRangeForBB (ctx : AnalysisCtx) (F : Func)
    (backEdges : List (Nat × Nat)) (gs : GState) (fvrms : FuncVRMsT)
    (B : BasicBlock) : Option (GState × FuncVRMsT × Bool) :=
  match predsFold ctx gs F backEdges B.id fvrms B.preds with
  | none => none
  | some f2 =>
    match instsFold ctx backEdges B.id gs f2 B.insts false with
    | none => none
    | some (gs2, f3, ch) =>
      match B.term with
      | .retT rv =>
        match visitReturnInst ctx gs2 f3 B.id F.name rv with
        | none => none
        | some (gs3, f4, ch2) => some (gs3, f4, ch || ch2)
      | _ => some (gs2, f3, ch)

/-- The block loop of `RangePass::updateRangeFor(Function *)`
(Range.cc:497-498). -/
def blocksFold (ctx : AnalysisCtx) (F : Func) :
    GState → FuncVRMsT → List BasicBlock → Bool → Option (GState × FuncVRMsT × Bool)
  | gs, fvrms, [], acc => some (gs, fvrms, acc)
  | gs, fvrms, b :: rest, acc =>
    match updateRangeForBB ctx F F.backEdges gs fvrms b with
    | none => none
    | some (gs2, f2, ch) => blocksFold ctx F gs2 f2 rest (acc || ch)

/-- `RangePass::updateRangeFor(Function *)` (Range.cc:489-501): clear the
local maps, recompute the back edges, and sweep every block in order. -/
def updateRangeForFunc (ctx : AnalysisCtx) (gs : GState) (F : Func) :
    Option (GState × Bool) :=
  match blocksFold ctx F gs [] F.blocks false with
  | none => none
  | some (gs2, _, ch) => some (gs2, ch)

/-- The function loop of `RangePass::doModulePass` (Range.cc:519-521),
skipping functions without blocks. -/
def funcsFold (ctx : AnalysisCtx) :
    GState → List Func → Bool → Option (GState × Bool)
  | gs, [], acc => some (gs, acc)
  | gs, F :: rest, acc =>
    if F.blocks.isEmpty then funcsFold ctx gs rest acc
    else
      match updateRangeForFunc ctx gs F with
      | none => none
      | some (gs2, ch) => funcsFold ctx gs2 rest (acc || ch)

/-- The forced-widening step (Range.cc:510-516): every id recorded in the
previous round's ChangeSet has its stored range replaced by the full range
of its bit width. -/
def widenChanges (gs : GState) : GState :=
  ⟨gs.changes.foldl (fun ir id =>
      match alookup ir id with
      | some r => aset ir id (IntervalRange.fullR r.width)
      | none => ir) gs.intRanges,
    gs.changes⟩

/-- One iteration of the `while` loop of `RangePass::doModulePass`
(Range.cc:508-523) at counter value `itr`: widen if the counter exceeds the
cap, clear the ChangeSet, then sweep every non-empty function.  `maxIter`
models the `MaxIterations` constant of the missing `IntGlobal.h` header
(spec §6: "a maximum-iteration count"). -/
def doRound (ctx : AnalysisCtx) (M : List Func) (maxIter itr : Nat)
    (gs : GState) : Option (GState × Bool) :=
  let gs1 := if maxIter < itr then widenChanges gs else gs
  funcsFold ctx ⟨gs1.intRanges, []⟩ M false

/-- The `while (changed)` loop of `RangePass::doModulePass`, with explicit
fuel; returns the final state, the accumulated return flag, and the number
of sweep rounds executed. -/
def doModulePassAux (ctx : AnalysisCtx) (M : List Func) (maxIter : Nat) :
    Nat → Nat → GState → Bool → Option (GState × Bool × Nat)
  | 0, _, _, _ => none
  | fuel + 1, itr, gs, ret =>
    match doRound ctx M maxIter (itr + 1) gs with
    | none => none
    | some (gs2, changed) =>
      if changed then doModulePassAux ctx M maxIter fuel (itr + 1) gs2 true
      else some (gs2, ret, itr + 1)

/-- `RangePass::doModulePass` (Range.cc:503-525) run with the given fuel. -/
def doModulePassFuel (ctx : AnalysisCtx) (M : List Func) (maxIter fuel : Nat)
    (gs : GState) : Option (GState × Bool × Nat) :=
  doModulePassAux ctx M maxIter fuel 0 gs false

/-- Number of sweep rounds the driver executes before converging. -/
def driverRounds (ctx : AnalysisCtx) (M : List Func) (maxIter fuel : Nat)
    (gs : GState) : Option Nat :=
  (doModulePassFuel ctx M maxIter fuel gs).map (fun r => r.2.2)

end RangePass

theorem alookup_aset_self {α β : Type} [DecidableEq α]
    (l : List (α × β)) (a : α) (b : β) : alookup (aset l a b) a = some b := by
  induction l with
  | nil => simp [aset, alookup]
  | cons kv rest ih =>
    obtain ⟨k, v⟩ := kv
    unfold aset
    by_cases h : k = a
    · rw [if_pos h]; unfold alookup; rw [if_pos h]
    · rw [if_neg h]; unfold alookup; rw [if_neg h]; exact ih

theorem alookup_aset_ne {α β : Type} [DecidableEq α]
    (l : List (α × β)) (a c : α) (b : β) (h : a ≠ c) :
    alookup (aset l a b) c = alookup l c := by
  induction l with
  | nil => simp [aset, alookup, h]
  | cons kv rest ih =>
    obtain ⟨k, v⟩ := kv
    unfold aset
    by_cases hk : k = a
    · rw [if_pos hk]
      subst hk
      unfold alookup
      rw [if_neg h, if_neg h]
    · rw [if_neg hk]
      unfold alookup
      by_cases hc : k = c
      · rw [if_pos hc, if_pos hc]
      · rw [if_neg hc, if_neg hc]; exact ih

theorem fvrmGet_aset_self (fvrms : FuncVRMsT) (bb : Nat) (x : ValueRangeMap) :
    RangePass.fvrmGet (aset fvrms bb x) bb = x := by
  unfold RangePass.fvrmGet
  rw [alookup_aset_self]
  rfl

namespace IntervalRange

theorem zextOrTrunc_self {R : IntervalRange} {bits : Nat} (h : R.width = bits) :
    R.zextOrTrunc bits = R := by
  unfold zextOrTrunc
  rw [if_pos h]

theorem fullR_not_empty (w : Nat) : (fullR w).isEmpty = false := rfl

end IntervalRange

namespace RangePass

theorem safeUnion_contains (CR R : IntervalRange) :
    IntervalRange.Contains (safeUnion CR R).1 CR := by
  unfold safeUnion conv_and_warn_if_unmatch
  by_cases h : CR.width = R.width
  · rw [if_neg (fun hne => hne h)]
    exact IntervalRange.contains_unionWith_left h
  · rw [if_pos h]
    exact IntervalRange.contains_unionWith_left
      (IntervalRange.zextOrTrunc_width R CR.width).symm

theorem safeUnion_width (CR R : IntervalRange) :
    (safeUnion CR R).1.width = CR.width := by
  unfold safeUnion conv_and_warn_if_unmatch
  by_cases h : CR.width = R.width
  · rw [if_neg (fun hne => hne h)]
    exact IntervalRange.unionWith_width h
  · rw [if_pos h]
    exact IntervalRange.unionWith_width
      (IntervalRange.zextOrTrunc_width R CR.width).symm

theorem safeUnion_contains_right {CR R : IntervalRange}
    (h : CR.width = R.width) :
    IntervalRange.Contains (safeUnion CR R).1 R := by
  unfold safeUnion conv_and_warn_if_unmatch
  rw [if_neg (fun hne => hne h)]
  exact IntervalRange.contains_unionWith_right h

/-- One entry of the forced-widening loop (Range.cc:511-515). -/
def widenStep (ir : RangeMap) (id : String) : RangeMap :=
  match alookup ir id with
  | some r => aset ir id (IntervalRange.fullR r.width)
  | none => ir

theorem widenStep_foldl_full (ids : List String) :
    ∀ (ir : RangeMap) (id : String) (w : Nat),
      alookup ir id = some (IntervalRange.fullR w) →
      alookup (ids.foldl widenStep ir) id = some (IntervalRange.fullR w) := by
  induction ids with
  | nil => intro ir id w h; exact h
  | cons hd tl ih =>
    intro ir id w h
    rw [List.foldl_cons]
    apply ih
    unfold widenStep
    by_cases he : hd = id
    · subst he
      rw [h]
      exact alookup_aset_self ir hd (IntervalRange.fullR w)
    · cases halt : alookup ir hd with
      | none => exact h
      | some rr => rw [alookup_aset_ne ir hd id (IntervalRange.fullR rr.width) he]; exact h

theorem widenStep_foldl_mem (ids : List String) :
    ∀ (ir : RangeMap) (id : String) (r : IntervalRange),
      id ∈ ids → alookup ir id = some r →
      alookup (ids.foldl widenStep ir) id = some (IntervalRange.fullR r.width) := by
  induction ids with
  | nil => intro ir id r hmem _; exact absurd hmem (List.not_mem_nil id)
  | cons hd tl ih =>
    intro ir id r hmem h
    rw [List.foldl_cons]
    by_cases he : hd = id
    · subst he
      apply widenStep_foldl_full
      unfold widenStep
      rw [h]
      exact alookup_aset_self ir hd (IntervalRange.fullR r.width)
    · have hmem2 : id ∈ tl := by
        rcases List.mem_cons.mp hmem with h1 | h1
        · exact absurd h1.symm he
        · exact h1
      apply ih
      · exact hmem2
      · unfold widenStep
        cases halt : alookup ir hd with
        | none => exact h
        | some rr => rw [alookup_aset_ne ir hd id (IntervalRange.fullR rr.width) he]; exact h

theorem widenStep_foldl_mono (ids : List String) :
    ∀ (ir : RangeMap) (id : String) (r : IntervalRange),
      alookup ir id = some r →
      ∃ r2, alookup (ids.foldl widenStep ir) id = some r2 ∧
        IntervalRange.Contains r2 r := by
  induction ids with
  | nil => intro ir id r h; exact ⟨r, h, IntervalRange.contains_refl r⟩
  | cons hd tl ih =>
    intro ir id r h
    rw [List.foldl_cons]
    by_cases he : hd = id
    · subst he
      obtain ⟨r2, h2, hc⟩ := ih (widenStep ir hd) hd (IntervalRange.fullR r.width)
        (by unfold widenStep; rw [h]; exact alookup_aset_self ir hd (IntervalRange.fullR r.width))
      exact ⟨r2, h2, IntervalRange.contains_trans hc (IntervalRange.contains_fullR rfl)⟩
    · apply ih
      unfold widenStep
      cases halt : alookup ir hd with
      | none => exact h
      | some rr => rw [alookup_aset_ne ir hd id (IntervalRange.fullR rr.width) he]; exact h

theorem widenChanges_eq_foldl (gs : GState) :
    widenChanges gs =
      ⟨gs.changes.foldl widenStep gs.intRanges, gs.changes⟩ := rfl

end RangePass

/-- A context whose oracles return nothing: no callees, no symbolic ids, no
taint sources, no icmp conditions. -/
def trivialCtx : AnalysisCtx where
  callees := fun _ => none
  retIdF := fun _ => ""
  retIdC := fun _ => ""
  argId := fun _ _ => ""
  valueId := fun _ => ""
  taint := fun _ => false
  icmpDef := fun _ => none
  varArgOrIntrinsic := fun _ => false

/-- One link of the chain program of the driver counterexample: a single
block that loads the 2-bit global read by `valueId` and stores the loaded
value to the location named `sid`. -/
def chainFunc (loadId : Nat) (sid fn : String) : Func :=
  ⟨fn,
    [⟨0, [],
      [Inst.load (Val.someVal loadId (Ty.int 2)) (Val.someVal (loadId + 1) (Ty.ptrToInt 2)),
       Inst.store sid (Val.someVal loadId (Ty.int 2)) (Val.someVal (loadId + 2) (Ty.ptrToInt 2))],
      Terminator.retT none⟩],
    []⟩

/-- Naming oracle of the chain program: the three loads read `g0`, `g1` and
`g2` respectively. -/
def chainCtx : AnalysisCtx :=
  { trivialCtx with
    valueId := fun v =>
      match v with
      | .someVal 11 _ => "g0"
      | .someVal 21 _ => "g1"
      | .someVal 31 _ => "g2"
      | _ => "" }

/-- The chain module, listed in propagation-adverse order: each sweep round
pushes the seeded range of `g0` one link further (`g1`, then `g2`, then
`g3`), so the driver needs one round per link plus a final quiet round. -/
def chainModule : List Func :=
  [chainFunc 31 "g3" "f3", chainFunc 21 "g2" "f2", chainFunc 11 "g1" "f1"]

/-- Initial global table of the chain program: `g0` seeded to the singleton
1 (as by `doInitialization` for a global initialiser `g0 = 1`). -/
def chainInit : GState := ⟨[("g0", IntervalRange.constRange 2 1)], []⟩

/-- The 8-bit variable of the spec's branch-refinement example. -/
def exX : Val := Val.someVal 1 (Ty.int 8)

/-- The condition value of the spec's branch-refinement example. -/
def exCond : Val := Val.someVal 99 (Ty.int 1)

/-- Context of the spec's example: the branch condition is the icmp
`exX <u 10`, defined in block 0. -/
def exCtx : AnalysisCtx :=
  { trivialCtx with
    icmpDef := fun v =>
      if v = exCond then some (CmpPred.ult, exX, Val.constInt 8 10, 0) else none }

/-- Local maps of the spec's example: `exX` has the incoming range
`[0,255]` in the branching block 0. -/
def exFvrms : FuncVRMsT := [(0, [(exX, IntervalRange.fullR 8)])]

/-- Left operand of the branch-refinement counterexample (4-bit, `[0,7]`). -/
def cexX : Val := Val.someVal 1 (Ty.int 4)

/-- Right operand of the branch-refinement counterexample (4-bit, `[2,5]`). -/
def cexY : Val := Val.someVal 2 (Ty.int 4)

/-- Condition value of the branch-refinement counterexample. -/
def cexCond : Val := Val.someVal 98 (Ty.int 1)

/-- Context of the counterexample: the branch condition is the icmp
`cexX <u cexY`, defined in block 0. -/
def cexCtx : AnalysisCtx :=
  { trivialCtx with
    icmpDef := fun v =>
      if v = cexCond then some (CmpPred.ult, cexX, cexY, 0) else none }

/-- Local maps of the counterexample: `cexX ↦ [0,7]`, `cexY ↦ [2,5]`. -/
def cexFvrms : FuncVRMsT :=
  [(0, [(cexX, IntervalRange.make 4 0 7), (cexY, IntervalRange.make 4 2 5)])]

/-- A 2-bit argument-like value named `"t"` by the naming oracle. -/
def taintedVal : Val := Val.someVal 5 (Ty.int 2)

/-- A 2-bit call whose only callee's return id `"tr"` is tainted. -/
def taintedCall : Val := Val.callV 6 (Ty.int 2) false

/-- Context marking `"t"` and `"tr"` as taint sources, with a narrower fact
stored for both ids in `taintGState`. -/
def taintCtx : AnalysisCtx :=
  { trivialCtx with
    valueId := fun v => if v = taintedVal then "t" else ""
    callees := fun v => if v = taintedCall then some ["callee"] else none
    retIdF := fun f => if f = "callee" then "tr" else ""
    taint := fun s => s = "t" || s = "tr" }

/-- A global table storing narrower facts for the tainted ids. -/
def taintGState : GState :=
  ⟨[("t", IntervalRange.constRange 2 1), ("tr", IntervalRange.constRange 2 2)], []⟩

/-- The load result used by the store/load round-trip witness. -/
def storeLoadVal : Val := Val.someVal 9 (Ty.int 2)

/-- Context naming both the witness store and `storeLoadVal` as `"s"`. -/
def storeCtx : AnalysisCtx :=
  { trivialCtx with valueId := fun v => if v = storeLoadVal then "s" else "" }

/-- C6: unioning an empty range is a no-op: for every state, SymbolicID and
(block, variable), the global-table union and the per-block local-map union
with an empty input range return `false` and leave the table/map and the
ChangeSet unchanged (no insertion occurs). -/
theorem C6_empty_union_noop :
    (∀ (gs : GState) (sID : String) (R : IntervalRange), R.isEmpty = true →
      RangePass.unionRangeS gs sID R = (gs, false)) ∧
    (∀ (fvrms : FuncVRMsT) (bb : Nat) (V : Val) (R : IntervalRange),
      R.isEmpty = true → RangePass.unionRangeB fvrms bb V R = (fvrms, false)) := by
  constructor
  · intro gs sID R h
    unfold RangePass.unionRangeS
    rw [if_pos h]
  · intro fvrms bb V R h
    unfold RangePass.unionRangeB
    rw [if_pos h]

/-- Witness for C6 at a concrete state and empty range. -/
theorem C6_empty_union_noop_witness :
    RangePass.unionRangeS ⟨[("a", IntervalRange.fullR 4)], []⟩ "a"
        (IntervalRange.emptyR 4) = (⟨[("a", IntervalRange.fullR 4)], []⟩, false) ∧
    RangePass.unionRangeB [] 0 (Val.someVal 0 Ty.other) (IntervalRange.emptyR 4) =
        ([], false) :=
  ⟨C6_empty_union_noop.1 ⟨[("a", IntervalRange.fullR 4)], []⟩ "a"
      (IntervalRange.emptyR 4) (by decide),
    C6_empty_union_noop.2 [] 0 (Val.someVal 0 Ty.other)
      (IntervalRange.emptyR 4) (by decide)⟩

/-- C2 counterexample: combining a 3-bit first range with a 2-bit second
range leaves the pair at the *wider* width 3 (the narrower second range is
zero-extended up), not at the narrower width 2 claimed. -/
theorem C2_counterexample :
    (conv_and_warn_if_unmatch (IntervalRange.fullR 3) (IntervalRange.fullR 2)).1.width = 3 ∧
    (conv_and_warn_if_unmatch (IntervalRange.fullR 3) (IntervalRange.fullR 2)).2.1.width = 3 ∧
    ¬((conv_and_warn_if_unmatch (IntervalRange.fullR 3) (IntervalRange.fullR 2)).2.1.width = 2) ∧
    (conv_and_warn_if_unmatch (IntervalRange.fullR 3) (IntervalRange.fullR 2)).2.2 = true := by
  decide

/-- C2 (amended): whenever two ranges of different bit widths are combined,
the *second* range is zero-extended or truncated to the *first* range's
width (in `safeUnion`, the incoming range to the stored range's width), the
first range is untouched, a warning is logged exactly on mismatch, and the
combination is total — never fatal. -/
theorem C2_amended_width_normalization :
    ∀ V1 V2 : IntervalRange,
      (conv_and_warn_if_unmatch V1 V2).1 = V1 ∧
      (conv_and_warn_if_unmatch V1 V2).2.1.width = V1.width ∧
      ((conv_and_warn_if_unmatch V1 V2).2.1 =
        if V1.width = V2.width then V2 else V2.zextOrTrunc V1.width) ∧
      ((conv_and_warn_if_unmatch V1 V2).2.2 = decide (V1.width ≠ V2.width)) ∧
      (RangePass.safeUnion V1 V2).1.width = V1.width := by
  intro V1 V2
  by_cases h : V1.width = V2.width
  · have hc : conv_and_warn_if_unmatch V1 V2 = (V1, V2, false) := by
      unfold conv_and_warn_if_unmatch
      rw [if_neg (fun hne => hne h)]
    rw [hc]
    refine ⟨rfl, h.symm, ?_, ?_, RangePass.safeUnion_width V1 V2⟩
    · rw [if_pos h]
    · simp [h]
  · have hc : conv_and_warn_if_unmatch V1 V2 =
        (V1, V2.zextOrTrunc V1.width, true) := by
      unfold conv_and_warn_if_unmatch
      rw [if_pos h]
    rw [hc]
    refine ⟨rfl, IntervalRange.zextOrTrunc_width V2 V1.width, ?_, ?_,
      RangePass.safeUnion_width V1 V2⟩
    · rw [if_neg h]
    · simp [h]

/-- C5: the `SDiv`, `AShr` and `Xor` transfers return the left operand's
range unchanged, and the `URem` and `SRem` transfers return the right
operand's range unchanged, rather than a derived range, for operand ranges
of equal bit width (§4.1's same-width contract). -/
theorem C5_unsound_identity_transfers :
    ∀ (ctx : AnalysisCtx) (gs : GState) (fvrms f1 f2 : FuncVRMsT) (bb : Nat)
      (a b : Val) (L R : IntervalRange),
      RangePass.getRange ctx gs fvrms bb a = some (L, f1) →
      RangePass.getRange ctx gs f1 bb b = some (R, f2) →
      L.width = R.width →
      RangePass.visitBinaryOp ctx gs fvrms bb BinOp.sdiv a b = some (L, f2) ∧
      RangePass.visitBinaryOp ctx gs fvrms bb BinOp.ashr a b = some (L, f2) ∧
      RangePass.visitBinaryOp ctx gs fvrms bb BinOp.bXor a b = some (L, f2) ∧
      RangePass.visitBinaryOp ctx gs fvrms bb BinOp.urem a b = some (R, f2) ∧
      RangePass.visitBinaryOp ctx gs fvrms bb BinOp.srem a b = some (R, f2) := by
  intro ctx gs fvrms f1 f2 bb a b L R h1 h2 hw
  have hc : conv_and_warn_if_unmatch L R = (L, R, false) := by
    unfold conv_and_warn_if_unmatch
    rw [if_neg (fun hne => hne hw)]
  refine ⟨?_, ?_, ?_, ?_, ?_⟩ <;> simp [RangePass.visitBinaryOp, h1, h2, hc]

/-- Witness for C5 at two 4-bit constants. -/
theorem C5_unsound_identity_transfers_witness :
    RangePass.visitBinaryOp trivialCtx ⟨[], []⟩ [] 0 BinOp.sdiv
        (Val.constInt 4 3) (Val.constInt 4 5) =
      some (IntervalRange.constRange 4 3, []) ∧
    RangePass.visitBinaryOp trivialCtx ⟨[], []⟩ [] 0 BinOp.ashr
        (Val.constInt 4 3) (Val.constInt 4 5) =
      some (IntervalRange.constRange 4 3, []) ∧
    RangePass.visitBinaryOp trivialCtx ⟨[], []⟩ [] 0 BinOp.bXor
        (Val.constInt 4 3) (Val.constInt 4 5) =
      some (IntervalRange.constRange 4 3, []) ∧
    RangePass.visitBinaryOp trivialCtx ⟨[], []⟩ [] 0 BinOp.urem
        (Val.constInt 4 3) (Val.constInt 4 5) =
      some (IntervalRange.constRange 4 5, []) ∧
    RangePass.visitBinaryOp trivialCtx ⟨[], []⟩ [] 0 BinOp.srem
        (Val.constInt 4 3) (Val.constInt 4 5) =
      some (IntervalRange.constRange 4 5, []) :=
  C5_unsound_identity_transfers trivialCtx ⟨[], []⟩ [] [] [] 0
    (Val.constInt 4 3) (Val.constInt 4 5)
    (IntervalRange.constRange 4 3) (IntervalRange.constRange 4 5)
    (by decide) (by decide) (by decide)

instance (R : IntervalRange) : Decidable (IntervalRange.WF R) := by
  unfold IntervalRange.WF
  infer_instance

theorem unionRangeS_intRanges (gs : GState) (sID : String) (R : IntervalRange) :
    (RangePass.unionRangeS gs sID R).1.intRanges =
      if R.isEmpty then gs.intRanges
      else
        match alookup gs.intRanges sID with
        | some old => aset gs.intRanges sID (RangePass.safeUnion old R).1
        | none => aset gs.intRanges sID R := by
  unfold RangePass.unionRangeS
  by_cases hE : R.isEmpty = true
  · rw [if_pos hE, if_pos hE]
  · rw [if_neg hE, if_neg hE]
    cases halt : alookup gs.intRanges sID with
    | some old =>
      dsimp only
      rcases hsu : RangePass.safeUnion old R with ⟨nr, ch⟩
      cases ch <;> simp
    | none => rfl

/-- C7: the global fact table grows monotonically per id: after a
global-table union or the forced-widening step, the range stored under any
SymbolicID contains the range stored under that id before the operation. -/
theorem C7_global_table_monotone :
    (∀ (gs : GState) (sID : String) (R : IntervalRange) (id : String)
       (r : IntervalRange),
      alookup gs.intRanges id = some r →
      ∃ r2, alookup (RangePass.unionRangeS gs sID R).1.intRanges id = some r2 ∧
        IntervalRange.Contains r2 r) ∧
    (∀ (gs : GState) (id : String) (r : IntervalRange),
      alookup gs.intRanges id = some r →
      ∃ r2, alookup (RangePass.widenChanges gs).intRanges id = some r2 ∧
        IntervalRange.Contains r2 r) := by
  constructor
  · intro gs sID R id r h
    rw [unionRangeS_intRanges]
    by_cases hE : R.isEmpty = true
    · rw [if_pos hE]
      exact ⟨r, h, IntervalRange.contains_refl r⟩
    · rw [if_neg hE]
      cases halt : alookup gs.intRanges sID with
      | some old =>
        by_cases hid : sID = id
        · subst hid
          rw [halt] at h
          injection h with h2
          subst h2
          exact ⟨(RangePass.safeUnion old R).1,
            alookup_aset_self gs.intRanges sID (RangePass.safeUnion old R).1,
            RangePass.safeUnion_contains old R⟩
        · refine ⟨r, ?_, IntervalRange.contains_refl r⟩
          rw [alookup_aset_ne gs.intRanges sID id (RangePass.safeUnion old R).1 hid]
          exact h
      | none =>
        by_cases hid : sID = id
        · subst hid
          rw [halt] at h
          exact absurd h (by simp)
        · refine ⟨r, ?_, IntervalRange.contains_refl r⟩
          rw [alookup_aset_ne gs.intRanges sID id R hid]
          exact h
  · intro gs id r h
    rw [RangePass.widenChanges_eq_foldl]
    exact RangePass.widenStep_foldl_mono gs.changes gs.intRanges id r h

/-- Witness for C7: a union widening a stored 3-bit range and a widening
step both preserve containment at a concrete state. -/
theorem C7_global_table_monotone_witness :
    IntervalRange.Contains (IntervalRange.make 3 1 6) (IntervalRange.make 3 1 2) ∧
    alookup (RangePass.unionRangeS ⟨[("a", IntervalRange.make 3 1 2)], []⟩ "a"
        (IntervalRange.make 3 4 6)).1.intRanges "a" =
      some (IntervalRange.make 3 1 6) ∧
    IntervalRange.Contains (IntervalRange.fullR 3) (IntervalRange.make 3 1 2) ∧
    alookup (RangePass.widenChanges
        ⟨[("b", IntervalRange.make 3 1 2)], ["b"]⟩).intRanges "b" =
      some (IntervalRange.fullR 3) := by
  obtain ⟨r2, h2, hc2⟩ := C7_global_table_monotone.1
    ⟨[("a", IntervalRange.make 3 1 2)], []⟩ "a" (IntervalRange.make 3 4 6) "a"
    (IntervalRange.make 3 1 2) (by decide)
  obtain ⟨r3, h3, hc3⟩ := C7_global_table_monotone.2
    ⟨[("b", IntervalRange.make 3 1 2)], ["b"]⟩ "b" (IntervalRange.make 3 1 2)
    (by decide)
  have he2 : r2 = IntervalRange.make 3 1 6 :=
    Option.some.inj (h2.symm.trans (by decide))
  have he3 : r3 = IntervalRange.fullR 3 :=
    Option.some.inj (h3.symm.trans (by decide))
  exact ⟨he2 ▸ hc2, by decide, he3 ▸ hc3, by decide⟩

/-- C8: union monotonicity and idempotence for well-formed ranges of equal
bit width: `A ∪ (A ∪ B) = A ∪ B`, a second `safeUnion` of `A` into the
result reports no change, and both `A ⊆ A ∪ B` and `B ⊆ A ∪ B`. -/
theorem C8_union_monotone_idempotent :
    ∀ A B : IntervalRange, A.width = B.width →
      IntervalRange.WF A → IntervalRange.WF B →
      IntervalRange.unionWith A (IntervalRange.unionWith A B) =
        IntervalRange.unionWith A B ∧
      (RangePass.safeUnion (IntervalRange.unionWith A B) A).2 = false ∧
      (∀ x, x < 2 ^ A.width → A.mem x = true →
        (IntervalRange.unionWith A B).mem x = true) ∧
      (∀ x, x < 2 ^ A.width → B.mem x = true →
        (IntervalRange.unionWith A B).mem x = true) := by
  intro A B hw hA hB
  obtain ⟨h1, h2⟩ := IntervalRange.unionWith_absorb hA hB hw
  refine ⟨h1, ?_, fun x hx hm => IntervalRange.mem_unionWith_left hx hm,
    fun x hx hm => IntervalRange.mem_unionWith_right hx hm⟩
  have hSw : (IntervalRange.unionWith A B).width = A.width :=
    IntervalRange.unionWith_width hw
  unfold RangePass.safeUnion conv_and_warn_if_unmatch
  rw [if_neg (fun hne => hne hSw)]
  dsimp only
  rw [h2]
  simp

/-- Witness for C8 at two concrete well-formed 3-bit ranges. -/
theorem C8_union_monotone_idempotent_witness :
    IntervalRange.unionWith (IntervalRange.make 3 1 3)
        (IntervalRange.unionWith (IntervalRange.make 3 1 3) (IntervalRange.make 3 5 6)) =
      IntervalRange.unionWith (IntervalRange.make 3 1 3) (IntervalRange.make 3 5 6) ∧
    (RangePass.safeUnion
        (IntervalRange.unionWith (IntervalRange.make 3 1 3) (IntervalRange.make 3 5 6))
        (IntervalRange.make 3 1 3)).2 = false ∧
    (IntervalRange.unionWith (IntervalRange.make 3 1 3) (IntervalRange.make 3 5 6)).mem 2 = true ∧
    (IntervalRange.unionWith (IntervalRange.make 3 1 3) (IntervalRange.make 3 5 6)).mem 5 = true := by
  have h := C8_union_monotone_idempotent (IntervalRange.make 3 1 3)
    (IntervalRange.make 3 5 6) (by decide) (by decide) (by decide)
  exact ⟨h.1, h.2.1, h.2.2.1 2 (by decide) (by decide), h.2.2.2 5 (by decide) (by decide)⟩

theorem fullR_width (w : Nat) : (IntervalRange.fullR w).width = w := rfl

theorem isSome_ite_some {c : Prop} [Decidable c] {α : Type} (a b : α) :
    (if c then some a else some b).isSome = true := by
  split <;> rfl

theorem calleeRetFold_taint (ctx : AnalysisCtx) (gs : GState) (w : Nat) :
    ∀ (CEEs : List String) (CR : IntervalRange) (f : String), f ∈ CEEs →
      ctx.retIdF f ≠ "" → ctx.taint (ctx.retIdF f) = true →
      RangePass.calleeRetFold ctx gs w CR CEEs = IntervalRange.fullR w := by
  intro CEEs
  induction CEEs with
  | nil => intro CR f hf _ _; exact absurd hf (List.not_mem_nil f)
  | cons hd tl ih =>
    intro CR f hf hne htaint
    unfold RangePass.calleeRetFold
    by_cases hh : ctx.retIdF hd ≠ "" ∧ ctx.taint (ctx.retIdF hd) = true
    · rw [if_pos hh]
    · rw [if_neg hh]
      dsimp only
      rcases List.mem_cons.mp hf with heq | hmem
      · subst heq
        exact absurd ⟨hne, htaint⟩ hh
      · exact ih _ f hmem hne htaint

/-- C9: taint override: a value resolved through a SymbolicID that the
taint oracle marks (the argument/load path), or a call with a callee whose
return id is marked, resolves to the full range of the value's own bit
width, regardless of any narrower fact stored in the global table. -/
theorem C9_taint_override :
    (∀ (ctx : AnalysisCtx) (gs : GState) (fvrms : FuncVRMsT) (bb id : Nat)
       (t : Ty) (w : Nat),
      tyIntWidth t = some w →
      alookup (RangePass.fvrmGet fvrms bb) (Val.someVal id t) = none →
      ctx.valueId (Val.someVal id t) ≠ "" →
      ctx.taint (ctx.valueId (Val.someVal id t)) = true →
      (RangePass.getRange ctx gs fvrms bb (Val.someVal id t)).map Prod.fst =
        some (IntervalRange.fullR w)) ∧
    (∀ (ctx : AnalysisCtx) (gs : GState) (fvrms : FuncVRMsT) (bb id : Nat)
       (t : Ty) (w : Nat) (CEEs : List String) (f : String),
      tyIntWidth t = some w →
      alookup (RangePass.fvrmGet fvrms bb) (Val.callV id t false) = none →
      ctx.callees (Val.callV id t false) = some CEEs →
      f ∈ CEEs → ctx.retIdF f ≠ "" → ctx.taint (ctx.retIdF f) = true →
      (RangePass.getRange ctx gs fvrms bb (Val.callV id t false)).map Prod.fst =
        some (IntervalRange.fullR w)) := by
  constructor
  · intro ctx gs fvrms bb id t w hty hvrm hsid htaint
    unfold RangePass.getRange
    dsimp only [Val.ty]
    rw [hvrm, hty]
    dsimp only
    rw [if_pos hsid, if_pos htaint,
      IntervalRange.zextOrTrunc_self (fullR_width w),
      if_neg (by simp [IntervalRange.fullR_not_empty])]
    rfl
  · intro ctx gs fvrms bb id t w CEEs f hty hvrm hcallees hf hne htaint
    unfold RangePass.getRange
    dsimp only [Val.ty]
    rw [hvrm, hty]
    dsimp only
    rw [if_pos rfl, hcallees]
    dsimp only
    rw [calleeRetFold_taint ctx gs w CEEs (IntervalRange.emptyR w) f hf hne htaint,
      if_neg (by simp [IntervalRange.fullR_not_empty])]
    rfl

/-- Witness for C9: the tainted argument-like value `"t"` and the call with
tainted callee return id `"tr"` both resolve to the full 2-bit range even
though `taintGState` stores narrower singleton facts for both ids. -/
theorem C9_taint_override_witness :
    (RangePass.getRange taintCtx taintGState [] 0 taintedVal).map Prod.fst =
      some (IntervalRange.fullR 2) ∧
    (RangePass.getRange taintCtx taintGState [] 0 taintedCall).map Prod.fst =
      some (IntervalRange.fullR 2) :=
  ⟨C9_taint_override.1 taintCtx taintGState [] 0 5 (Ty.int 2) 2
      (by decide) (by decide) (by decide) (by decide),
    C9_taint_override.2 taintCtx taintGState [] 0 6 (Ty.int 2) 2 ["callee"] "callee"
      (by decide) (by decide) (by decide) (by decide) (by decide) (by decide)⟩

/-- C10: the range query's implicit type precondition: for every value
whose type is an integer type or a pointer to an integer type (including
constants and locally-memoised values), `getRange` succeeds; for a queried
value of any other type that is not a constant integer and is absent from
the block's local map, the `assert(Ty != NULL)` branch is reached
(`getRange` returns `none`) — so under the precondition the assertion
branch is unreachable. -/
theorem C10_getRange_type_precondition :
    (∀ (ctx : AnalysisCtx) (gs : GState) (fvrms : FuncVRMsT) (bb : Nat)
       (V : Val) (w : Nat),
      tyIntWidth V.ty = some w →
      (RangePass.getRange ctx gs fvrms bb V).isSome = true) ∧
    (∀ (ctx : AnalysisCtx) (gs : GState) (fvrms : FuncVRMsT) (bb : Nat)
       (V : Val),
      V.ty = Ty.other →
      alookup (RangePass.fvrmGet fvrms bb) V = none →
      RangePass.getRange ctx gs fvrms bb V = none) := by
  constructor
  · intro ctx gs fvrms bb V w hty
    cases V with
    | constInt cw cv => rfl
    | callV cid ct casm =>
      unfold RangePass.getRange
      dsimp only
      cases halt : alookup (RangePass.fvrmGet fvrms bb) (Val.callV cid ct casm) with
      | some cr => rfl
      | none =>
        rw [hty]
        dsimp only
        exact isSome_ite_some _ _
    | someVal sid st =>
      unfold RangePass.getRange
      dsimp only
      cases halt : alookup (RangePass.fvrmGet fvrms bb) (Val.someVal sid st) with
      | some cr => rfl
      | none =>
        rw [hty]
        dsimp only
        exact isSome_ite_some _ _
  · intro ctx gs fvrms bb V hty hvrm
    cases V with
    | constInt cw cv => exact absurd hty (by simp [Val.ty])
    | callV cid ct casm =>
      unfold RangePass.getRange
      dsimp only
      rw [hvrm]
      dsimp only [Val.ty] at hty
      rw [hty]
      rfl
    | someVal sid st =>
      unfold RangePass.getRange
      dsimp only
      rw [hvrm]
      dsimp only [Val.ty] at hty
      rw [hty]
      rfl

/-- Witness for C10: an integer value, a pointer-to-integer value and an
untyped value at concrete inputs. -/
theorem C10_getRange_type_precondition_witness :
    (RangePass.getRange trivialCtx ⟨[], []⟩ [] 0 (Val.someVal 1 (Ty.int 4))).isSome = true ∧
    (RangePass.getRange trivialCtx ⟨[], []⟩ [] 0 (Val.someVal 2 (Ty.ptrToInt 4))).isSome = true ∧
    RangePass.getRange trivialCtx ⟨[], []⟩ [] 0 (Val.someVal 3 Ty.other) = none :=
  ⟨C10_getRange_type_precondition.1 trivialCtx ⟨[], []⟩ [] 0
      (Val.someVal 1 (Ty.int 4)) 4 (by decide),
    C10_getRange_type_precondition.1 trivialCtx ⟨[], []⟩ [] 0
      (Val.someVal 2 (Ty.ptrToInt 4)) 4 (by decide),
    C10_getRange_type_precondition.2 trivialCtx ⟨[], []⟩ [] 0
      (Val.someVal 3 Ty.other) (by decide) (by decide)⟩

/-- C1 counterexample: for the conditional branch on `cexX <u cexY` with
`cexX ↦ [0,7]` and `cexY ↦ [2,5]` (4-bit), the true successor's recorded
range for the right operand is `[1,7]` — the *left* operand's range
intersected with the derived constraint — whereas the claim's formula
("its own existing range intersected with the constraint derived from the
other operand's range") yields `[2,5]`. -/
theorem C1_counterexample :
    (RangePass.visitBranchInst cexCtx ⟨[], []⟩ cexFvrms true cexCond 1 1 []).map
        (fun r => alookup r.2 cexY) = some (some (IntervalRange.make 4 1 7)) ∧
    (IntervalRange.make 4 2 5).intersectWith
        (IntervalRange.makeICmpRegion (swappedPred CmpPred.ult)
          (IntervalRange.make 4 0 7)) = IntervalRange.make 4 2 5 ∧
    IntervalRange.make 4 1 7 ≠ IntervalRange.make 4 2 5 := by
  decide

set_option maxHeartbeats 1000000 in
/-- C1 (amended): for a conditional branch on an integer comparison
`LHS pred RHS` with resolved operand ranges `LCR`, `RCR` of equal width,
the refinement recorded for a successor maps `LHS` to
`LCR ∩ region(pred, RCR)` (true target) or `LCR ∩ region(pred⁻¹, RCR)`
(false target), and maps `RHS` to `LCR ∩ region(swap(pred), LCR)` (true
target) or `LCR ∩ region(swap(pred)⁻¹, RCR)` (false target) — the second
operand's own range `RCR` is not used for its own entry, and on the false
target both constraints derive from `RCR`; entries are only recorded for
operands absent from the successor's copied map.  In particular, for
`x <u 10` on an 8-bit `x` with incoming range `[0,255]` and an empty copied
map, the true successor's derived range for `x` is `[0,9]` and the false
successor's is `[10,255]`. -/
theorem C1_amended_branch_refinement :
    (∀ (ctx : AnalysisCtx) (gs : GState) (fvrms f1 f2 : FuncVRMsT)
       (cond lhs rhs : Val) (p : CmpPred) (iblk tSucc bb : Nat)
       (vrm : ValueRangeMap) (LCR RCR : IntervalRange),
      ctx.icmpDef cond = some (p, lhs, rhs, iblk) →
      lhs.isIntegerTy = true → rhs.isIntegerTy = true →
      RangePass.getRange ctx gs fvrms iblk lhs = some (LCR, f1) →
      RangePass.getRange ctx gs f1 iblk rhs = some (RCR, f2) →
      LCR.width = RCR.width →
      (bb = tSucc →
        RangePass.visitBranchInst ctx gs fvrms true cond tSucc bb vrm =
          some (f2, ainsert (ainsert vrm lhs
              (LCR.intersectWith (IntervalRange.makeICmpRegion p RCR))) rhs
            (LCR.intersectWith
              (IntervalRange.makeICmpRegion (swappedPred p) LCR)))) ∧
      (bb ≠ tSucc →
        RangePass.visitBranchInst ctx gs fvrms true cond tSucc bb vrm =
          some (f2, ainsert (ainsert vrm lhs
              (LCR.intersectWith
                (IntervalRange.makeICmpRegion (inversePred p) RCR))) rhs
            (LCR.intersectWith
              (IntervalRange.makeICmpRegion (inversePred (swappedPred p)) RCR))))) ∧
    (RangePass.visitBranchInst exCtx ⟨[], []⟩ exFvrms true exCond 1 1 []).map
        (fun r => alookup r.2 exX) = some (some (IntervalRange.make 8 0 9)) ∧
    (RangePass.visitBranchInst exCtx ⟨[], []⟩ exFvrms true exCond 1 2 []).map
        (fun r => alookup r.2 exX) = some (some (IntervalRange.make 8 10 255)) := by
  refine ⟨?_, by decide, by decide⟩
  intro ctx gs fvrms f1 f2 cond lhs rhs p iblk tSucc bb vrm LCR RCR
    hdef hl hr h1 h2 hw
  have hc : conv_and_warn_if_unmatch LCR RCR = (LCR, RCR, false) := by
    unfold conv_and_warn_if_unmatch
    rw [if_neg (fun hne => hne hw)]
  constructor
  · intro heq
    unfold RangePass.visitBranchInst
    rw [if_neg (by simp), hdef]
    dsimp only
    rw [if_neg (by simp [hl, hr]), h1]
    dsimp only
    rw [h2]
    dsimp only
    rw [hc]
    dsimp only
    rw [if_pos heq]
  · intro hne
    unfold RangePass.visitBranchInst
    rw [if_neg (by simp), hdef]
    dsimp only
    rw [if_neg (by simp [hl, hr]), h1]
    dsimp only
    rw [h2]
    dsimp only
    rw [hc]
    dsimp only
    rw [if_neg hne]

/-- Witness for C1 (amended) at the spec's own example, true successor. -/
theorem C1_amended_branch_refinement_witness :
    RangePass.visitBranchInst exCtx ⟨[], []⟩ exFvrms true exCond 1 1 [] =
      some (exFvrms, ainsert (ainsert [] exX
          ((IntervalRange.fullR 8).intersectWith
            (IntervalRange.makeICmpRegion CmpPred.ult
              (IntervalRange.constRange 8 10)))) (Val.constInt 8 10)
        ((IntervalRange.fullR 8).intersectWith
          (IntervalRange.makeICmpRegion (swappedPred CmpPred.ult)
            (IntervalRange.fullR 8)))) :=
  (C1_amended_branch_refinement.1 exCtx ⟨[], []⟩ exFvrms exFvrms exFvrms exCond
      exX (Val.constInt 8 10) CmpPred.ult 0 1 1 [] (IntervalRange.fullR 8)
      (IntervalRange.constRange 8 10) (by decide) (by decide) (by decide)
      (by decide) (by decide) (by decide)).1 rfl

theorem unionRangeS_lookup_self (gs : GState) (sID : String) (CR : IntervalRange)
    (hne : CR.isEmpty = false)
    (hwc : ∀ r0, alookup gs.intRanges sID = some r0 → r0.width = CR.width) :
    ∃ entry, alookup (RangePass.unionRangeS gs sID CR).1.intRanges sID = some entry ∧
      IntervalRange.Contains entry CR ∧ entry.width = CR.width := by
  rw [unionRangeS_intRanges, if_neg (by simp [hne])]
  cases halt : alookup gs.intRanges sID with
  | some old =>
    have how := hwc old halt
    refine ⟨(RangePass.safeUnion old CR).1, alookup_aset_self gs.intRanges sID _, ?_, ?_⟩
    · exact RangePass.safeUnion_contains_right how
    · rw [RangePass.safeUnion_width]; exact how
  | none =>
    exact ⟨CR, alookup_aset_self gs.intRanges sID CR,
      IntervalRange.contains_refl CR, rfl⟩

theorem unionRangeB_lookup_self (fvrms : FuncVRMsT) (bb : Nat) (p : Val)
    (CR : IntervalRange) (hne : CR.isEmpty = false)
    (hwc : ∀ r0, alookup (RangePass.fvrmGet fvrms bb) p = some r0 →
      r0.width = CR.width) :
    ∃ entry, alookup (RangePass.fvrmGet (RangePass.unionRangeB fvrms bb p CR).1 bb) p =
        some entry ∧ IntervalRange.Contains entry CR := by
  unfold RangePass.unionRangeB
  rw [if_neg (by simp [hne])]
  dsimp only
  cases halt : alookup (RangePass.fvrmGet fvrms bb) p with
  | some old =>
    dsimp only
    rcases hsu : RangePass.safeUnion old CR with ⟨nr, ch⟩
    refine ⟨nr, ?_, ?_⟩
    · rw [fvrmGet_aset_self, alookup_aset_self]
    · have hcr := RangePass.safeUnion_contains_right (hwc old halt)
      rw [hsu] at hcr
      exact hcr
  | none =>
    refine ⟨CR, ?_, IntervalRange.contains_refl CR⟩
    dsimp only
    rw [fvrmGet_aset_self, alookup_aset_self]

/-- C4 counterexample: a store of the integer constant 1 whose destination
has no SymbolicID (`getValueId(SI) = ""`) performs *no* local-map union at
all: the local maps come back unchanged and the pointer operand has no
entry, contradicting the claim's unconditional part (a). -/
theorem C4_counterexample :
    (Val.constInt 4 1).isIntegerTy = true ∧
    RangePass.visitStoreInst trivialCtx ⟨[], []⟩ [] 0 "" (Val.constInt 4 1)
        (Val.someVal 7 (Ty.ptrToInt 4)) = some (⟨[], []⟩, [], false) ∧
    (RangePass.visitStoreInst trivialCtx ⟨[], []⟩ [] 0 "" (Val.constInt 4 1)
        (Val.someVal 7 (Ty.ptrToInt 4))).map
      (fun r => alookup (RangePass.fvrmGet r.2.1 0) (Val.someVal 7 (Ty.ptrToInt 4))) =
      some none := by
  decide

/-- C4 (amended): for a store of an integer value whose destination *has* a
SymbolicID (`getValueId(SI) ≠ ""`), the stored value's range is (a) unioned
into the block's local map under the store's pointer operand and (b) unioned
into the global table under that SymbolicID, and the return value is
exactly whether the global table changed; a later load in the same block
that resolves to the same SymbolicID at the same bit width (and is not yet
memoised) yields a range containing the stored range.  When the destination
has no SymbolicID, nothing happens (see the counterexample). -/
theorem C4_amended_store_transfer :
    ∀ (ctx : AnalysisCtx) (gs : GState) (fvrms f1 : FuncVRMsT) (bb : Nat)
      (sid : String) (v p : Val) (CR : IntervalRange),
      v.isIntegerTy = true → sid ≠ "" →
      RangePass.getRange ctx gs fvrms bb v = some (CR, f1) →
      (RangePass.visitStoreInst ctx gs fvrms bb sid v p =
        some ((RangePass.unionRangeS gs sid CR).1,
          (RangePass.unionRangeB f1 bb p CR).1,
          (RangePass.unionRangeS gs sid CR).2)) ∧
      (CR.isEmpty = false →
        (∀ r0, alookup (RangePass.fvrmGet f1 bb) p = some r0 →
          r0.width = CR.width) →
        ∃ entry, alookup
            (RangePass.fvrmGet (RangePass.unionRangeB f1 bb p CR).1 bb) p =
          some entry ∧ IntervalRange.Contains entry CR) ∧
      (CR.isEmpty = false →
        (∀ r0, alookup gs.intRanges sid = some r0 → r0.width = CR.width) →
        ∃ entry, alookup (RangePass.unionRangeS gs sid CR).1.intRanges sid =
          some entry ∧ IntervalRange.Contains entry CR) ∧
      (∀ (lid w : Nat) (CR2 : IntervalRange) (f3 : FuncVRMsT),
        w = CR.width → CR.isEmpty = false →
        ctx.valueId (Val.someVal lid (Ty.int w)) = sid →
        alookup (RangePass.fvrmGet (RangePass.unionRangeB f1 bb p CR).1 bb)
          (Val.someVal lid (Ty.int w)) = none →
        (∀ r0, alookup gs.intRanges sid = some r0 → r0.width = CR.width) →
        RangePass.getRange ctx (RangePass.unionRangeS gs sid CR).1
          (RangePass.unionRangeB f1 bb p CR).1 bb (Val.someVal lid (Ty.int w)) =
          some (CR2, f3) →
        IntervalRange.Contains CR2 CR) := by
  intro ctx gs fvrms f1 bb sid v p CR hint hsid hgr
  refine ⟨?_, ?_, ?_, ?_⟩
  · unfold RangePass.visitStoreInst
    rw [if_pos ⟨hint, hsid⟩, hgr]
  · intro hne hwc
    exact unionRangeB_lookup_self f1 bb p CR hne hwc
  · intro hne hwc
    obtain ⟨entry, hent, hcont, -⟩ := unionRangeS_lookup_self gs sid CR hne hwc
    exact ⟨entry, hent, hcont⟩
  · intro lid w CR2 f3 hwid hne hvid hlook hwc hgr2
    obtain ⟨entry, hent, hcont, hentw⟩ := unionRangeS_lookup_self gs sid CR hne hwc
    unfold RangePass.getRange at hgr2
    dsimp only [Val.ty] at hgr2
    rw [hlook] at hgr2
    dsimp only [tyIntWidth] at hgr2
    rw [hvid] at hgr2
    by_cases htaint : ctx.taint sid = true
    · rw [if_pos hsid, if_pos htaint,
        IntervalRange.zextOrTrunc_self (fullR_width w),
        if_neg (by simp [IntervalRange.fullR_not_empty])] at hgr2
      injection hgr2 with hp
      injection hp with hp1 hp2
      rw [← hp1]
      exact IntervalRange.contains_fullR hwid.symm
    · rw [if_pos hsid, if_neg htaint, hent] at hgr2
      dsimp only at hgr2
      rw [IntervalRange.zextOrTrunc_self (hentw.trans hwid.symm)] at hgr2
      split at hgr2 <;>
        (injection hgr2 with hp; injection hp with hp1 hp2; rw [← hp1]; exact hcont)

/-- Witness for C4 (amended): a store of the 2-bit constant 1 to a location
named `"s"`, followed by the load `storeLoadVal` of the same location. -/
theorem C4_amended_store_transfer_witness :
    (RangePass.visitStoreInst storeCtx ⟨[], []⟩ [] 0 "s" (Val.constInt 2 1)
        (Val.someVal 7 (Ty.ptrToInt 2)) =
      some ((RangePass.unionRangeS ⟨[], []⟩ "s" (IntervalRange.constRange 2 1)).1,
        (RangePass.unionRangeB [] 0 (Val.someVal 7 (Ty.ptrToInt 2))
          (IntervalRange.constRange 2 1)).1,
        (RangePass.unionRangeS ⟨[], []⟩ "s" (IntervalRange.constRange 2 1)).2)) ∧
    IntervalRange.Contains (IntervalRange.constRange 2 1)
      (IntervalRange.constRange 2 1) ∧
    alookup (RangePass.fvrmGet (RangePass.unionRangeB [] 0
        (Val.someVal 7 (Ty.ptrToInt 2)) (IntervalRange.constRange 2 1)).1 0)
      (Val.someVal 7 (Ty.ptrToInt 2)) = some (IntervalRange.constRange 2 1) := by
  have h := C4_amended_store_transfer storeCtx ⟨[], []⟩ [] [] 0 "s"
    (Val.constInt 2 1) (Val.someVal 7 (Ty.ptrToInt 2))
    (IntervalRange.constRange 2 1) (by decide) (by decide) (by decide)
  refine ⟨h.1, ?_, by decide⟩
  exact h.2.2.2 9 2 (IntervalRange.constRange 2 1)
    [(0, [(Val.someVal 7 (Ty.ptrToInt 2), IntervalRange.constRange 2 1),
          (storeLoadVal, IntervalRange.constRange 2 1)])]
    (by decide) (by decide) (by decide) (by decide)
    (fun r0 hr0 => Option.noConfusion hr0) (by decide)

/-- C3 counterexample: on the three-function chain program with
`MaxIterations = 1`, the driver executes 4 sweep rounds before a round
produces no change — more than the claimed `MaxIterations + 1 = 2` bound
(each round propagates the seeded range of `g0` only one link further,
and the forced widening cannot shortcut the propagation). -/
theorem C3_counterexample :
    RangePass.driverRounds chainCtx chainModule 1 10 chainInit = some 4 ∧
    ¬(4 ≤ 1 + 1) := by
  constructor
  · decide
  · decide

/-- C3 (amended): in any round whose iteration counter exceeds
`MaxIterations`, the round first replaces the stored global range of every
SymbolicID recorded in the previous round's ChangeSet with the full range
for its bit width, clears the ChangeSet, and only then sweeps the module;
the driver is *not* in general done within `MaxIterations + 1` rounds (see
the counterexample), though it does converge on the chain program, in 4
rounds. -/
theorem C3_amended_forced_widening :
    (∀ (ctx : AnalysisCtx) (M : List Func) (maxIter itr : Nat) (gs : GState),
      maxIter < itr →
      RangePass.doRound ctx M maxIter itr gs =
        RangePass.funcsFold ctx ⟨(RangePass.widenChanges gs).intRanges, []⟩ M false) ∧
    (∀ (gs : GState) (id : String) (r : IntervalRange),
      id ∈ gs.changes → alookup gs.intRanges id = some r →
      alookup (RangePass.widenChanges gs).intRanges id =
        some (IntervalRange.fullR r.width)) ∧
    (RangePass.doModulePassFuel chainCtx chainModule 1 10 chainInit).map
        (fun r => r.2.2) = some 4 := by
  refine ⟨?_, ?_, by decide⟩
  · intro ctx M maxIter itr gs h
    unfold RangePass.doRound
    rw [if_pos h]
  · intro gs id r hmem h
    rw [RangePass.widenChanges_eq_foldl]
    exact RangePass.widenStep_foldl_mem gs.changes gs.intRanges id r hmem h

/-- Witness for C3 (amended): the widening behaviour at a concrete state
whose previous-round ChangeSet holds `"a"` with a stored 3-bit range, in a
round whose counter 3 exceeds the cap 1. -/
theorem C3_amended_forced_widening_witness :
    RangePass.doRound trivialCtx [] 1 3 ⟨[("a", IntervalRange.make 3 1 2)], ["a"]⟩ =
      RangePass.funcsFold trivialCtx
        ⟨(RangePass.widenChanges ⟨[("a", IntervalRange.make 3 1 2)], ["a"]⟩).intRanges, []⟩
        [] false ∧
    alookup (RangePass.widenChanges
        ⟨[("a", IntervalRange.make 3 1 2)], ["a"]⟩).intRanges "a" =
      some (IntervalRange.fullR 3) :=
  ⟨C3_amended_forced_widening.1 trivialCtx [] 1 3
      ⟨[("a", IntervalRange.make 3 1 2)], ["a"]⟩ (by decide),
    C3_amended_forced_widening.2.1 ⟨[("a", IntervalRange.make 3 1 2)], ["a"]⟩ "a"
      (IntervalRange.make 3 1 2) (by decide) (by decide)⟩

/-- Witness for C2 (amended) at a 3-bit and a 2-bit range. -/
theorem C2_amended_width_normalization_witness :
    (conv_and_warn_if_unmatch (IntervalRange.fullR 3) (IntervalRange.fullR 2)).1 =
      IntervalRange.fullR 3 ∧
    (conv_and_warn_if_unmatch (IntervalRange.fullR 3) (IntervalRange.fullR 2)).2.1.width =
      (IntervalRange.fullR 3).width ∧
    ((conv_and_warn_if_unmatch (IntervalRange.fullR 3) (IntervalRange.fullR 2)).2.1 =
      if (IntervalRange.fullR 3).width = (IntervalRange.fullR 2).width then
        IntervalRange.fullR 2
      else (IntervalRange.fullR 2).zextOrTrunc (IntervalRange.fullR 3).width) ∧
    ((conv_and_warn_if_unmatch (IntervalRange.fullR 3) (IntervalRange.fullR 2)).2.2 =
      decide ((IntervalRange.fullR 3).width ≠ (IntervalRange.fullR 2).width)) ∧
    (RangePass.safeUnion (IntervalRange.fullR 3) (IntervalRange.fullR 2)).1.width =
      (IntervalRange.fullR 3).width :=
  C2_amended_width_normalization (IntervalRange.fullR 3) (IntervalRange.fullR 2)
